import Mathlib

/-
Verification development for the SSA alias-analysis / code-motion subsystem
of a Go compiler backend fork.

The embedding below models, faithfully to the sources:
  - the SSA value graph (values referenced by integer ID, as in the arena
    design of the source),
  - the alias partitioning engine (`aliasAnalysis`, `ptrbase`, `offsplit`,
    `overlap`, `alias`, `phialias`, `clobbers` in both of the evolution
    points present in the sources),
  - the bounded clobber walk of the tighten pass (`maxmemwalk`,
    `clobberwalk`, `sinkLoad`, `hoistLoad`),
  - store forwarding (`constzero`, `loadfollow`, `phifollow`),
  - the dominator-tree / loop-nest reasoning of the tighten pass
    (LCA targets and the loop-depth walk-up).

Go functions that abort compilation via Fatalf (invariant violations) are
modelled as returning `none`; ordinary results are `some _`.  Machine
integers (int64 offsets and widths) are modelled as `Int`; none of the
modelled arithmetic is anywhere near the 64-bit boundary, and the source
performs no deliberate wrap-around on them.
-/

namespace GoSSA

/-- Operation tags.  Only the operations consulted by the alias engine and
the code-motion passes are modelled; `OpAtomicStore` stands for the
atomic/side-effecting operations of the real opcode table and
`OpStaticCall` for the calls. -/
inductive Op where
  | OpPhi | OpCopy | OpOffPtr | OpAddPtr | OpPtrIndex
  | OpSP | OpSB | OpAddr | OpArg | OpLoad
  | OpStore | OpStoreWB | OpZero | OpZeroWB
  | OpInitMem | OpVarDef | OpVarKill | OpVarLive | OpKeepAlive
  | OpSelect1 | OpConvert | OpStaticCall | OpAtomicStore
  | OpConst64 | OpConst32 | OpConst16 | OpConst8
  | OpConstBool | OpConst64F | OpConst32F | OpConstNil
  deriving DecidableEq, Repr

open Op

/-- Result types, with the predicates the sources consult
(`Size`, `IsMemory`, `IsPtrShaped`, `IsFloat`, `IsBoolean`, `IsTuple`). -/
structure Ty where
  size : Int
  isMemory : Bool := false
  isPtrShaped : Bool := false
  isFloat : Bool := false
  isBoolean : Bool := false
  isTuple : Bool := false
  deriving DecidableEq, Repr

/-- Auxiliary data attached to a value: a stack/arg/extern symbol
(for OpAddr), a GC node (for the Var markers), a type (for stores),
or nothing.  Extern symbols record whether the symbol lives in
read-only data. -/
inductive Aux where
  | none
  | autoSym (node : Nat)
  | argSym (node : Nat)
  | externSym (node : Nat) (readonly : Bool)
  | gcNode (node : Nat)
  | typ (t : Ty)
  | callSym (name : Nat)
  deriving DecidableEq, Repr

/-- An SSA value: stable integer identity, operation, result type,
constant auxiliary data, argument value IDs, and owning block ID. -/
structure Value where
  id : Nat
  op : Op
  typ : Ty
  auxInt : Int := 0
  aux : Aux := Aux.none
  args : List Nat := []
  block : Nat := 0
  deriving DecidableEq, Repr

/-- The function: the arena of values, plus the strict-dominance
relation between blocks supplied externally (`sdom.isAncestorEq`),
listed as the pairs for which `isAncestorEq` answers true. -/
structure Func where
  values : List Value
  sdomPairs : List (Nat × Nat) := []
  deriving DecidableEq, Repr

/-- Look a value up by ID in the function's arena. -/
def lookup (f : Func) (i : Nat) : Option Value :=
  f.values.find? (fun v => v.id = i)

/-- isAncestorEq query on the externally supplied dominator tree of
blocks. -/
def sdomB (f : Func) (a b : Nat) : Bool :=
  a = b || (a, b) ∈ f.sdomPairs

/-- Partition record: partition number and flags, as in `ptrinfo`.
The three flags of `aliasFlags` are carried as booleans. -/
structure Ptrinfo where
  part : Int
  alloc : Bool := false
  noalias : Bool := false
  readonly : Bool := false
  deriving DecidableEq, Repr

/-- The alias-analysis state: `idinfo` maps a value ID to index+1 in
`info` (0 meaning no partition), exactly as in the source. -/
structure AliasAnalysis where
  idinfo : List (Nat × Int) := []
  info : List Ptrinfo := []
  deriving DecidableEq, Repr

/-- Fetch the idinfo entry for an ID; absent entries read as the Go
zero value 0. -/
def idinfoAt (aa : AliasAnalysis) (i : Nat) : Int :=
  match aa.idinfo.find? (fun p => p.1 = i) with
  | some p => p.2
  | none => 0

/-- infoFor: the partition record of a value, if it has one. -/
def infoFor (aa : AliasAnalysis) (v : Value) : Option Ptrinfo :=
  let idx := idinfoAt aa v.id - 1
  if idx < 0 then none
  else aa.info.get? idx.toNat

/-- partition number of a value; -1 if it has none. -/
def partitionOf (aa : AliasAnalysis) (v : Value) : Int :=
  match infoFor aa v with
  | some i => i.part
  | none => -1

/-- isAlloc flag of a value's partition. -/
def isAlloc (aa : AliasAnalysis) (v : Value) : Bool :=
  match infoFor aa v with
  | some i => i.alloc
  | none => false

/-- isNoalias flag of a value's partition. -/
def isNoalias (aa : AliasAnalysis) (v : Value) : Bool :=
  match infoFor aa v with
  | some i => i.noalias
  | none => false

/-- isReadOnly flag of a value's partition. -/
def isReadOnly (aa : AliasAnalysis) (v : Value) : Bool :=
  match infoFor aa v with
  | some i => i.readonly
  | none => false

/-- ptrbase walk with explicit fuel: follow `Args[0]` through OffPtr,
AddPtr, PtrIndex and Copy wrappers. -/
def ptrbaseF (f : Func) : Nat → Value → Option Value
  | 0, _ => none
  | fuel + 1, v =>
    match v.op with
    | OpOffPtr | OpAddPtr | OpPtrIndex | OpCopy =>
      match v.args.head? with
      | some a =>
        match lookup f a with
        | some w => ptrbaseF f fuel w
        | none => none
      | none => none
    | _ => some v

/-- ptrbase: find the base pointer of an address calculation.  The walk
chain is acyclic in well-formed SSA, so fuel one past the arena size is
always enough. -/
def ptrbase (f : Func) (v : Value) : Option Value :=
  ptrbaseF f (f.values.length + 1) v

/-- offsplit walk with explicit fuel: peel OffPtr (accumulating the
constant offset) and Copy, returning the terminal value's ID and the
accumulated offset. -/
def offsplitF (f : Func) : Nat → Value → Int → Option (Nat × Int)
  | 0, _, _ => none
  | fuel + 1, v, off =>
    match v.op with
    | OpOffPtr =>
      match v.args.head? with
      | some a =>
        match lookup f a with
        | some w => offsplitF f fuel w (off + v.auxInt)
        | none => none
      | none => none
    | OpCopy =>
      match v.args.head? with
      | some a =>
        match lookup f a with
        | some w => offsplitF f fuel w off
        | none => none
      | none => none
    | _ => some (v.id, off)

/-- offsplit: peel away OffPtr and Copy ops. -/
def offsplit (f : Func) (v : Value) : Option (Nat × Int) :=
  offsplitF f (f.values.length + 1) v 0

/-- Alias relations (mustNotAlias = -1, mayAlias = 0, mustAlias = 1 in
the source). -/
inductive ARel where
  | mustNotAlias
  | mayAlias
  | mustAlias
  deriving DecidableEq, Repr

open ARel

/-- overlap test on constant offset/width windows, exactly as written in
the source: sort the two windows by offset and test only
`off0+width0 > off1`. -/
def overlap (off0 width0 off1 width1 : Int) : Bool :=
  if off0 > off1 then off1 + width1 > off0
  else off0 + width0 > off1

/-- aliasCore: the body of `alias` past the identical-value and phi
dispatch — the shared-base constant-offset comparison, the partition
comparison, the Noalias test, and the allocation/dominance tests, in
source order.  `none` models the Fatalf on two allocations sharing a
partition. -/
def aliasCore (f : Func) (aa : AliasAnalysis)
    (b : Value) (bwidth : Int) (c : Value) (cwidth : Int) : Option ARel :=
  match ptrbase f b, ptrbase f c with
  | some bbase, some cbase =>
    if bbase.id = cbase.id then
      match offsplit f b, offsplit f c with
      | some (bid, boff), some (cid, coff) =>
        if bid = cid then
          if boff = coff ∧ bwidth = cwidth then some mustAlias
          else if overlap boff bwidth coff cwidth then some mayAlias
          else some mustNotAlias
        else some mayAlias
      | _, _ => none
    else
      let bpart := partitionOf aa bbase
      let cpart := partitionOf aa cbase
      if bpart ≠ cpart ∧ bpart ≠ -1 ∧ cpart ≠ -1 then some mustNotAlias
      else if bpart = cpart then some mayAlias
      else if isNoalias aa bbase || isNoalias aa cbase then some mustNotAlias
      else if isAlloc aa bbase ∧ isAlloc aa cbase then none
      else if isAlloc aa bbase ∧
          (cbase.op = OpArg ∨ ¬ sdomB f bbase.block cbase.block) then
        some mustNotAlias
      else if isAlloc aa cbase ∧
          (bbase.op = OpArg ∨ ¬ sdomB f cbase.block bbase.block) then
        some mustNotAlias
      else some mayAlias
  | _, _ => none

/-- One row of the phialias cross product: compare `bv` against every
element of the `c` side, failing over to mayAlias on the first pair
whose relation differs from `ret` (returned as `false`), in iteration
order; `none` propagates an aborted inner query. -/
def phialiasRow (q : Value → Value → Option ARel) (ret : ARel)
    (bv : Value) : List Value → Option Bool
  | [] => some true
  | cv :: rest =>
    match q bv cv with
    | none => none
    | some r => if r = ret then phialiasRow q ret bv rest else some false

/-- The full phialias cross product over both argument lists. -/
def phialiasAll (q : Value → Value → Option ARel) (ret : ARel) :
    List Value → List Value → Option Bool
  | [], _ => some true
  | bv :: brest, cvs =>
    match phialiasRow q ret bv cvs with
    | none => none
    | some false => some false
    | some true => phialiasAll q ret brest cvs

/-- Resolve the comparison sides used by phialias: the phi's argument
values for a phi, and the single `Args[0]` value otherwise. -/
def phiSide (f : Func) (v : Value) : Option (List Value) :=
  if v.op = OpPhi then v.args.mapM (lookup f)
  else
    match v.args.head? with
    | some a => (lookup f a).map (fun w => [w])
    | none => none

/-- phialias parameterized by the inner alias query: compare the
cross-product of resolved incoming values pairwise, give up with
mayAlias when another phi appears among them, and answer definitively
only when every pairwise relation agrees. -/
def phialiasF (f : Func) (q : Value → Int → Value → Int → Option ARel)
    (b : Value) (bwidth : Int) (c : Value) (cwidth : Int) : Option ARel :=
  match phiSide f b, phiSide f c with
  | some bvalues, some cvalues =>
    if bvalues.length + cvalues.length ≤ 2 then none
    else if bvalues.any (fun bv => bv.op = OpPhi) then some mayAlias
    else if cvalues.any (fun cv => cv.op = OpPhi) then some mayAlias
    else
      match bvalues.head?, cvalues.head? with
      | some bv0, some cv0 =>
        match q bv0 bwidth cv0 cwidth with
        | none => none
        | some ret =>
          if ret = mayAlias then some mayAlias
          else
            match phialiasAll (fun bv cv => q bv bwidth cv cwidth) ret
                bvalues cvalues with
            | none => none
            | some true => some ret
            | some false => some mayAlias
      | _, _ => none
  | _, _ => none

/-- alias with explicit phi-recursion fuel.  The source's recursion
through phi arguments is self-limiting because phialias gives up as
soon as a nested phi appears among the compared values, so the
recursion depth never exceeds two; fuel 2 therefore realizes the
source function exactly (the fuel-exhaustion branch is unreachable
from the canonical entry point `aliasQ`). -/
def aliasF (f : Func) (aa : AliasAnalysis) :
    Nat → Value → Int → Value → Int → Option ARel
  | 0, _, _, _, _ => none
  | fuel + 1, b, bwidth, c, cwidth =>
    if b.id = c.id then
      if bwidth ≠ cwidth then some mayAlias else some mustAlias
    else if b.op = OpPhi ∨ c.op = OpPhi then
      phialiasF f (aliasF f aa fuel) b bwidth c cwidth
    else aliasCore f aa b bwidth c cwidth

/-- alias: the relationship between two pointer values and their
load/store widths (the evolution point of the sources that compares
memory phis pairwise). -/
def aliasQ (f : Func) (aa : AliasAnalysis)
    (b : Value) (bwidth : Int) (c : Value) (cwidth : Int) : Option ARel :=
  aliasF f aa 2 b bwidth c cwidth

/-- alias at the earlier evolution point of the sources, whose only
difference in control flow is that any phi operand immediately answers
mayAlias (the pairwise memory-phi comparison is not yet present). -/
def aliasPhiMay (f : Func) (aa : AliasAnalysis)
    (b : Value) (bwidth : Int) (c : Value) (cwidth : Int) : Option ARel :=
  if b.id = c.id then
    if bwidth ≠ cwidth then some mayAlias else some mustAlias
  else if b.op = OpPhi ∨ c.op = OpPhi then some mayAlias
  else aliasCore f aa b bwidth c cwidth

/-- gcnode: the GC node beneath an auto or arg symbol (nil otherwise). -/
def gcnode : Aux → Option Nat
  | Aux.autoSym n => some n
  | Aux.argSym n => some n
  | _ => none

/-- The aux of a Var marker viewed as a GC node; the comparison
`mem.Aux == gcnode(base.Aux)` of the source is Go interface equality,
under which two nil interfaces compare equal. -/
def auxGC : Aux → Option Nat
  | Aux.gcNode n => some n
  | _ => none

/-- per-operation call flag of the opcode table
(`opcodeTable[op].call`). -/
def opCall : Op → Bool
  | OpStaticCall => true
  | _ => false

/-- per-operation side-effect flag of the opcode table
(`opcodeTable[op].hasSideEffects`); `OpAtomicStore` stands for the
atomic operations. -/
def opSideEffects : Op → Bool
  | OpAtomicStore => true
  | _ => false

/-- Modelled from the spec: `MemoryArg` (defined in value.go, which is
not among the sources) returns the explicit memory operand carried by a
value referencing memory — its last argument when that argument is
memory-typed (or a tuple carrying memory) — and nil otherwise. -/
def MemoryArg (f : Func) (v : Value) : Option Value :=
  match v.args.getLast? with
  | some a =>
    match lookup f a with
    | some m => if m.typ.isMemory || m.typ.isTuple then some m else none
    | none => none
  | none => none

/-- ptrwidth: the width of a load or store operation. -/
def ptrwidth (v : Value) : Option Int :=
  if v.op = OpLoad then some v.typ.size
  else if ¬ v.typ.isMemory then none
  else
    match v.aux with
    | Aux.typ t => some t.size
    | _ => none

/-- Base pointer of a load's address operand. -/
def loadBase (f : Func) (load : Value) : Option Value :=
  match load.args.head? with
  | some a =>
    match lookup f a with
    | some la => ptrbase f la
    | none => none
  | none => none

/-- Shared special-case switch at the head of both versions of
`clobbers`: InitMem always clobbers; the Var markers clobber exactly
the load's own SP-relative auto symbol; KeepAlive clobbers its own
argument; Copy and Convert never clobber.  `none` = no special case. -/
def clobbersSpecial (f : Func) (mem load : Value) : Option (Option Bool) :=
  match mem.op with
  | OpInitMem => some (some true)
  | OpVarDef | OpVarKill | OpVarLive =>
    match loadBase f load with
    | none => some none
    | some base =>
      if base.op = OpAddr then
        match base.args.head? with
        | some b0 =>
          match lookup f b0 with
          | some bv =>
            some (some (bv.op = OpSP ∧ auxGC mem.aux = gcnode base.aux))
          | none => some none
        | none => some none
      else some (some false)
  | OpKeepAlive => some (some (mem.args.head? = some load.id))
  | OpCopy | OpConvert => some (some false)
  | _ => none

/-- clobbers: whether a memory-producing value must be ordered with
respect to the given load (the evolution point at which side-effecting
operations clobber everything except Noalias pointers).  `none` models
the Fatalf paths (a phi, or a value without a memory operand). -/
def clobbers (f : Func) (aa : AliasAnalysis) (mem load : Value) :
    Option Bool :=
  if mem.op = OpPhi then none
  else
    let m? : Option Value :=
      if mem.op = OpSelect1 then
        match mem.args.head? with
        | some a => lookup f a
        | none => none
      else some mem
    match m? with
    | none => none
    | some mem =>
      match clobbersSpecial f mem load with
      | some r => r
      | none =>
        match MemoryArg f mem with
        | none => none
        | some _ =>
          match loadBase f load with
          | none => none
          | some base =>
            if isReadOnly aa base then some false
            else
              let noalias := isNoalias aa base
              if opCall mem.op then some (¬ noalias ∨ base.op = OpSP)
              else if opSideEffects mem.op || mem.typ.isTuple then
                some (¬ noalias)
              else
                match ptrwidth mem, ptrwidth load with
                | some mw, some lw =>
                  match mem.args.head?, load.args.head? with
                  | some ma, some la =>
                    match lookup f ma, lookup f la with
                    | some mav, some lav =>
                      match aliasQ f aa mav mw lav lw with
                      | some r => some (r ≠ mustNotAlias)
                      | none => none
                    | _, _ => none
                  | _, _ => none
                | _, _ => none

/-- clobbers at the other evolution point of the sources: identical
except that side-effecting or tuple-producing operations clobber
everything unconditionally (the stricter policy the design adopts),
the phi-may alias variant is used, and the store comparison widths are
taken from the value types directly. -/
def clobbersStrict (f : Func) (aa : AliasAnalysis) (mem load : Value) :
    Option Bool :=
  if mem.op = OpPhi then none
  else
    let m? : Option Value :=
      if mem.op = OpSelect1 then
        match mem.args.head? with
        | some a => lookup f a
        | none => none
      else some mem
    match m? with
    | none => none
    | some mem =>
      match clobbersSpecial f mem load with
      | some r => r
      | none =>
        match MemoryArg f mem with
        | none => none
        | some _ =>
          match loadBase f load with
          | none => none
          | some base =>
            if isReadOnly aa base then some false
            else
              let noalias := isNoalias aa base
              if opCall mem.op then some (¬ noalias ∨ base.op = OpSP)
              else if opSideEffects mem.op || mem.typ.isTuple then
                some true
              else
                match mem.args.head?, load.args.head? with
                | some ma, some la =>
                  match lookup f ma, lookup f la with
                  | some mav, some lav =>
                    match aliasPhiMay f aa mav mem.typ.size lav
                        load.typ.size with
                    | some r => some (r ≠ mustNotAlias)
                    | none => none
                  | _, _ => none
                | _, _ => none

/-- maxmemwalk: the maximum number of memory values to walk before
giving up on proving that no clobbers exist between a load and its
destination. -/
def maxmemwalk : Nat := 10

/-- Sequential walk over the trailing phi arguments inside
clobberwalk, threading the shared visited set and stopping at the
first failing branch. -/
def cwArgsAux (k : Nat → List Nat → Option (Bool × List Nat)) :
    List Nat → List Nat → Option (Bool × List Nat)
  | [], set => some (true, set)
  | a :: rest, set =>
    match k a set with
    | none => none
    | some (false, s) => some (false, s)
    | some (true, s) => cwArgsAux k rest s

/-- clobberwalk with explicit fuel: returns whether there are no
clobbers of `load` starting at `memId` and ending at `endId`, together
with the final visited set.  The visited set is threaded through the
recursion exactly as the shared sparse set of the source, and the walk
gives up (false) once the set holds `maxmemwalk` values. -/
def clobberwalkF (f : Func) (aa : AliasAnalysis) (load : Value)
    (endId : Nat) : Nat → Nat → List Nat → Option (Bool × List Nat)
  | 0, _, _ => none
  | fuel + 1, memId, set =>
    if memId = endId then some (true, set)
    else if memId ∈ set then some (true, set)
    else if maxmemwalk ≤ set.length then some (false, set)
    else
        match lookup f memId with
        | none => none
        | some mem =>
          let set := memId :: set
          if mem.op = OpPhi then
            match cwArgsAux (fun a s => clobberwalkF f aa load endId fuel a s)
                (mem.args.drop 1) set with
            | none => none
            | some (false, s) => some (false, s)
            | some (true, s) =>
              match mem.args.head? with
              | some a0 => clobberwalkF f aa load endId fuel a0 s
              | none => none
          else
            match clobbers f aa mem load with
            | none => none
            | some true => some (false, set)
            | some false =>
              match MemoryArg f mem with
              | none => none
              | some m => clobberwalkF f aa load endId fuel m.id set

/-- clobberwalk at its canonical fuel: every loop iteration either
returns or grows the visited set, which is capped at `maxmemwalk`, so
fuel `maxmemwalk + 2` always suffices from an empty set. -/
def clobberwalk (f : Func) (aa : AliasAnalysis) (load : Value)
    (endId memId : Nat) (set : List Nat) : Option (Bool × List Nat) :=
  clobberwalkF f aa load endId (maxmemwalk + 2) memId set

/-- memrange: the entry and exit memory value of a block (by ID). -/
structure Memrange where
  entry : Option Nat := none
  exit : Option Nat := none
  deriving DecidableEq, Repr

/-- sinkLoad: try to sink the load `v` to block `bId`, walking from the
memory value live at the destination's entry back to the load's memory
argument; `some none` is failure (the load stays), `some (some m)` is
success with the load's rewritten memory argument. -/
def sinkLoad (f : Func) (aa : AliasAnalysis) (v : Value) (bId : Nat)
    (mr : List Memrange) : Option (Option Nat) :=
  if v.op ≠ OpLoad then none
  else
    match (mr.getD bId {}).entry with
    | none => none
    | some inId =>
      match MemoryArg f v with
      | none => none
      | some vm =>
        match clobberwalk f aa v vm.id inId [] with
        | none => none
        | some (false, _) => some none
        | some (true, _) => some (some inId)

/-- hoistLoad: try to hoist the load `v` to block `bId`, walking from
the load's memory argument to the memory value live at the
destination's exit. -/
def hoistLoad (f : Func) (aa : AliasAnalysis) (v : Value) (bId : Nat)
    (mr : List Memrange) : Option (Option Nat) :=
  match (mr.getD bId {}).exit with
  | none => some none
  | some exitId =>
    match MemoryArg f v with
    | none => none
    | some vm =>
      match clobberwalk f aa v exitId vm.id [] with
      | none => none
      | some (false, _) => some none
      | some (true, _) => some (some exitId)

/-- constzero: the constant-zero value of the given type, described as
the constant operation and its type (the created value is always the
zero of that operation): nil for pointer-shaped types; for widths 8 and
4 a float or integer zero by float-ness; an integer zero for width 2;
false for a boolean and an integer zero otherwise at width 1; and no
result for any other width. -/
def constzero (t : Ty) : Option (Op × Ty) :=
  if t.isPtrShaped then some (OpConstNil, t)
  else if t.size = 8 then
    some (if t.isFloat then (OpConst64F, t) else (OpConst64, t))
  else if t.size = 4 then
    some (if t.isFloat then (OpConst32F, t) else (OpConst32, t))
  else if t.size = 2 then some (OpConst16, t)
  else if t.size = 1 then
    some (if t.isBoolean then (OpConstBool, t) else (OpConst8, t))
  else none

/-- Result of a forwarding walk: a synthesized zero constant, an
existing value, a reference to the phi currently on top of the
recursion stack, or a freshly synthesized phi whose arguments may
contain self-references. -/
inductive Fwd where
  | czero (op : Op) (t : Ty)
  | val (id : Nat)
  | oldPhi (id : Nat)
  | selfRef
  | newPhi (blk : Nat) (args : List Fwd)

/-- Identity comparison on forwarding results, mirroring the pointer
equality the source applies to forwarded values: constants are cached
per operation and type, existing values and stack phis are identified
by ID, and a freshly synthesized phi is never identical to anything. -/
def Fwd.same : Fwd → Fwd → Bool
  | Fwd.czero o1 t1, Fwd.czero o2 t2 => o1 = o2 && t1 = t2
  | Fwd.val i, Fwd.val j => i = j
  | Fwd.oldPhi i, Fwd.oldPhi j => i = j
  | Fwd.selfRef, Fwd.selfRef => true
  | _, _ => false

/-- Is a forwarding result the marker for a self-reference? -/
def Fwd.isSelf : Fwd → Bool
  | Fwd.selfRef => true
  | _ => false

/-- Is a forwarding result a reference to the given stack phi? -/
def Fwd.isOldPhi (i : Nat) : Fwd → Bool
  | Fwd.oldPhi j => i = j
  | _ => false

/-- Modelled from the spec: `phielimValue` (defined in phielim.go,
which is not among the sources) eliminates a trivial phi — one all of
whose arguments other than references to itself are one same value —
by rewriting it in place into a Copy of that value. -/
def phielimValue (v : Value) : Value :=
  if v.op = OpPhi then
    let rest := v.args.filter (fun a => a ≠ v.id)
    match rest.head? with
    | some w =>
      if rest.all (fun a => a = w) then { v with op := OpCopy, args := [w] }
      else v
    | none => v
  else v

/-- Modelled from the spec: the same trivial-phi elimination applied to
a freshly synthesized phi over forwarding results, self-references
excluded. -/
def phielimFwd (blk : Nat) (args : List Fwd) : Fwd :=
  let rest := args.filter (fun a => ¬ a.isSelf)
  match rest.head? with
  | some w =>
    if rest.all (fun a => a.same w) then w else Fwd.newPhi blk args
  | none => Fwd.newPhi blk args

/-- Per-argument loop of phifollow: follow each structurally distinct
incoming edge, reusing the result of an earlier duplicate argument,
and fail as soon as one edge fails. -/
def phifollowArgs (k : Nat → List Nat → Option Fwd) (stack : List Nat) :
    List Nat → List (Nat × Fwd) → Option (List (Nat × Fwd))
  | [], acc => some acc
  | a :: rest, acc =>
    match acc.find? (fun p => p.1 = a) with
    | some p => phifollowArgs k stack rest (acc ++ [(a, p.2)])
    | none =>
      match k a stack with
      | none => none
      | some fv => phifollowArgs k stack rest (acc ++ [(a, fv)])

/-- phifollow parameterized by the inner forwarding walk: bail out when
the search is too deep or broad or the phi is already on the stack,
follow every structurally distinct incoming edge, then synthesize a new
phi over the results with self-references substituted, collapsing it if
trivial. -/
def phifollowF (k : Nat → List Nat → Option Fwd)
    (phi : Value) (stack : List Nat) : Option Fwd :=
  if phi.op ≠ OpPhi ∨ ¬ phi.typ.isMemory then none
  else if 10 ≤ stack.length ∨ 10 ≤ phi.args.length then none
  else if phi.id ∈ stack then none
  else
    let stack := phi.id :: stack
    match phifollowArgs k stack phi.args [] with
    | none => none
    | some acc =>
      let args := acc.map (fun p => p.2)
      let args := args.map
        (fun a => if a.isOldPhi phi.id then Fwd.selfRef else a)
      some (phielimFwd phi.block args)

/-- loadfollow with explicit fuel: walk the load's memory chain
backward toward the init value, forwarding through covered bulk zeroes
and must-aliasing stores, stepping over proven non-clobbers, and
recursing through memory phis; `none` is both the failure result and
the Fatalf paths. -/
def loadfollowF (f : Func) (aa : AliasAnalysis) :
    Nat → Value → Nat → List Nat → Option Fwd
  | 0, _, _, _ => none
  | fuel + 1, v, memId, stack =>
    if v.op ≠ OpLoad then none
    else
      match v.args.head? with
      | none => none
      | some fa =>
        match lookup f fa with
        | none => none
        | some fromv =>
          match lookup f memId with
          | none => none
          | some mem0 =>
            let mem := phielimValue mem0
            if mem.op = OpInitMem then none
            else if mem.op = OpPhi then
              if stack.head? = some mem.id then some (Fwd.oldPhi mem.id)
              else
                phifollowF (fun mid st => loadfollowF f aa fuel v mid st)
                  mem stack
            else
              let step : Option Fwd :=
                match clobbers f aa mem v with
                | none => none
                | some true => none
                | some false =>
                  match MemoryArg f mem with
                  | none => none
                  | some m => loadfollowF f aa fuel v m.id stack
              match mem.op with
              | OpZero | OpZeroWB =>
                let width := mem.auxInt
                match mem.args.head? with
                | none => none
                | some pa =>
                  match lookup f pa with
                  | none => none
                  | some ptr =>
                    match ptrbase f fromv with
                    | none => none
                    | some base =>
                      if ptr.id = base.id then
                        match offsplit f fromv with
                        | none => none
                        | some (bid, off) =>
                          if bid = ptr.id ∧ off + fromv.typ.size ≤ width then
                            (constzero v.typ).map
                              (fun p => Fwd.czero p.1 p.2)
                          else step
                      else step
              | OpStore | OpStoreWB =>
                match mem.aux with
                | Aux.typ st =>
                  match mem.args.head?, mem.args.get? 1 with
                  | some pa, some va =>
                    match lookup f pa, lookup f va with
                    | some ptr, some val =>
                      match aliasQ f aa ptr st.size fromv v.typ.size with
                      | none => none
                      | some r =>
                        if r = mustAlias then
                          if v.typ.isFloat ≠ val.typ.isFloat then none
                          else some (Fwd.val val.id)
                        else step
                    | _, _ => none
                  | _, _ => none
                | _ => none
              | _ => step

/-- loadfollow at a canonical fuel: the phi recursion is bounded by the
explicit stack-depth limit of phifollow, and the linear walk by the
size of the arena, so this fuel is always sufficient. -/
def loadfollow (f : Func) (aa : AliasAnalysis) (v : Value) (memId : Nat) :
    Option Fwd :=
  loadfollowF f aa (11 * (f.values.length + 1)) v memId []

/-- The immediate-dominator table `f.Idom()`: `parents[b]` is the
immediate dominator of block `b`. -/
structure DomTree where
  parents : List Nat
  deriving DecidableEq, Repr

/-- Immediate dominator of a block (the entry's is itself). -/
def idomOf (t : DomTree) (b : Nat) : Nat :=
  (t.parents.get? b).getD 0

/-- Well-formedness of the dominator table: the entry dominates itself
and every other block's immediate dominator has a smaller index. -/
def DomWF (t : DomTree) : Prop :=
  ∀ i, i < t.parents.length → (i = 0 → idomOf t i = 0) ∧ (i ≠ 0 → idomOf t i < i)

instance (t : DomTree) : Decidable (DomWF t) := by
  unfold DomWF; infer_instance

/-- dominates (isAncestorEq) with explicit fuel: walk b up the
immediate-dominator chain looking for a. -/
def ancF (t : DomTree) : Nat → Nat → Nat → Bool
  | 0, _, _ => false
  | fuel + 1, a, b =>
    if a = b then true
    else if b = 0 then false
    else ancF t fuel a (idomOf t b)

/-- dominates: block `a` dominates block `b` in the dominator tree
(reflexively).  Indices strictly decrease along the parent chain, so
fuel `b + 1` always suffices. -/
def anc (t : DomTree) (a b : Nat) : Bool :=
  ancF t (b + 1) a b

/-- Modelled from the spec: the least-common-ancestor query
(`makeLCArange(f).find` of lca.go, which is not among the sources)
answers the deepest block of the dominator tree dominating both
arguments; on an index-ordered parent table it is computed by walking
the deeper-indexed argument upward. -/
def lcaF (t : DomTree) : Nat → Nat → Nat → Nat
  | 0, a, _ => a
  | fuel + 1, a, b =>
    if a = b then a
    else if b < a then lcaF t fuel (idomOf t a) b
    else lcaF t fuel a (idomOf t b)

/-- Least common ancestor at its canonical fuel. -/
def lca (t : DomTree) (a b : Nat) : Nat :=
  lcaF t (a + b + 1) a b

/-- The loop nest: per block its innermost loop, if any
(`loops.b2l`), and per loop its header block and nesting depth. -/
structure LoopNest where
  b2l : List (Option Nat)
  headers : List Nat
  depths : List Nat
  deriving DecidableEq, Repr

/-- Innermost loop of a block. -/
def loopOf (L : LoopNest) (b : Nat) : Option Nat :=
  (L.b2l.get? b).getD none

/-- Header block of a loop. -/
def headerOf (L : LoopNest) (l : Nat) : Nat :=
  (L.headers.get? l).getD 0

/-- Nesting depth of a loop. -/
def depthOf (L : LoopNest) (l : Nat) : Nat :=
  (L.depths.get? l).getD 0

/-- Nesting depth of a block: its innermost loop's depth, zero when it
is in no loop. -/
def blockDepth (L : LoopNest) (b : Nat) : Nat :=
  match loopOf L b with
  | some l => depthOf L l
  | none => 0

/-- Well-formedness of the loop nest against the dominator tree: a
loop's header dominates every block of the loop, and the entry block
belongs to no loop. -/
def loopHeaderOk (t : DomTree) (L : LoopNest) (b : Nat) : Bool :=
  match loopOf L b with
  | some l => anc t (headerOf L l) b
  | none => true

def LoopWF (t : DomTree) (L : LoopNest) : Prop :=
  (∀ b, b < L.b2l.length → loopHeaderOk t L b = true) ∧ loopOf L 0 = none

instance (t : DomTree) (L : LoopNest) : Decidable (LoopWF t L) := by
  unfold LoopWF
  infer_instance

/-- The loop-depth walk-up of the tighten pass, with explicit fuel:
while the target is in a loop strictly deeper than the original block's
loop (or the original block is in no loop at all), move the target to
the immediate dominator of that loop's header. -/
def walkupF (t : DomTree) (L : LoopNest) (origloop : Option Nat) :
    Nat → Nat → Nat
  | 0, b => b
  | fuel + 1, b =>
    match loopOf L b with
    | none => b
    | some l =>
      if (match origloop with
          | none => true
          | some ol => depthOf L ol < depthOf L l) then
        walkupF t L origloop fuel (idomOf t (headerOf L l))
      else b

/-- The loop-depth walk-up at its canonical fuel: the target index
strictly decreases at every step under well-formedness, so fuel
`b + 2` always suffices. -/
def walkup (t : DomTree) (L : LoopNest) (orig b : Nat) : Nat :=
  walkupF t L (loopOf L orig) (b + 2) b

/-- A use site of a value: the block of the using value, and, for a
use as a phi argument, the predecessor block corresponding to the
argument position. -/
structure UseSite where
  userBlock : Nat
  phiPred : Option Nat := none
  deriving DecidableEq, Repr

/-- The block a use is charged to by the target computation: the
corresponding predecessor block for a phi use, the block of the using
value (or of the block, for a control use) otherwise. -/
def useBlock (u : UseSite) : Nat :=
  u.phiPred.getD u.userBlock

/-- Fold of the per-use LCA accumulation of the tighten pass. -/
def lcaFold (t : DomTree) : Nat → List Nat → Nat
  | acc, [] => acc
  | acc, u :: rest => lcaFold t (lca t acc u) rest

/-- computeTarget: the tighten pass's target block for a movable value
currently in block `orig` with the given use sites — the LCA of all
use blocks, adjusted upward out of any loop deeper than the value's
original loop; `none` when the value has no uses (no target is
recorded). -/
def computeTarget (t : DomTree) (L : LoopNest) (orig : Nat)
    (uses : List UseSite) : Option Nat :=
  match uses.map useBlock with
  | [] => none
  | u :: rest => some (walkup t L orig (lcaFold t u rest))

/-- Partition numbers handed out by the build phase are the
non-negative counter values, never the -1 sentinel. -/
def AAWF (aa : AliasAnalysis) : Prop :=
  ∀ i ∈ aa.info, 0 ≤ i.part

instance (aa : AliasAnalysis) : Decidable (AAWF aa) := by
  unfold AAWF; infer_instance

/-- Pointer chains of the arena are well formed: the base-pointer and
offset walks succeed on every value of the function. -/
def PtrWF (f : Func) : Prop :=
  ∀ v ∈ f.values, (ptrbase f v).isSome ∧ (offsplit f v).isSome

instance (f : Func) : Decidable (PtrWF f) := by
  unfold PtrWF; infer_instance

/-- Distinct allocations always receive distinct partitions (the build
phase gives every allocation a fresh partition; the source Fatalfs if
this is ever violated). -/
def AllocsSep (f : Func) (aa : AliasAnalysis) : Prop :=
  ∀ v ∈ f.values, ∀ w ∈ f.values, v.id ≠ w.id →
    isAlloc aa v = true → isAlloc aa w = true →
    partitionOf aa v ≠ partitionOf aa w

instance (f : Func) (aa : AliasAnalysis) : Decidable (AllocsSep f aa) := by
  unfold AllocsSep; infer_instance

/-- 8-byte pointer-shaped type. -/
def ptrTy : Ty := { size := 8, isPtrShaped := true }

/-- 8-byte integer type. -/
def i64Ty : Ty := { size := 8 }

/-- 1-byte boolean type. -/
def boolTy : Ty := { size := 1, isBoolean := true }

/-- memory type. -/
def memTy : Ty := { size := 0, isMemory := true }

def vsp : Value := { id := 1, op := OpSP, typ := ptrTy }

def vsb : Value := { id := 2, op := OpSB, typ := ptrTy }

def varg : Value := { id := 3, op := OpArg, typ := ptrTy }

def vauto0 : Value :=
  { id := 4, op := OpAddr, typ := ptrTy, aux := Aux.autoSym 0, args := [1] }

def vauto1 : Value :=
  { id := 5, op := OpAddr, typ := ptrTy, aux := Aux.autoSym 1, args := [1] }

def vglobal : Value :=
  { id := 6, op := OpAddr, typ := ptrTy, aux := Aux.externSym 2 false,
    args := [2] }

def vlo0 : Value :=
  { id := 7, op := OpOffPtr, typ := ptrTy, auxInt := 0, args := [4] }

def vhi0 : Value :=
  { id := 8, op := OpOffPtr, typ := ptrTy, auxInt := 4, args := [4] }

def vhi0dup : Value :=
  { id := 9, op := OpOffPtr, typ := ptrTy, auxInt := 4, args := [4] }

def vretptr : Value :=
  { id := 10, op := OpAddr, typ := ptrTy, aux := Aux.argSym 3, args := [1] }

/-- The value arena of TestAliasBasic. -/
def testFunc : Func :=
  { values := [vsp, vsb, varg, vauto0, vauto1, vglobal, vlo0, vhi0,
               vhi0dup, vretptr] }

/-- The analysis state the build and escape phases produce on
`testFunc`: SP and the three stack symbols are partitioned Noalias,
`auto1` has escaped through the store, and the global has a partition
with no flags. -/
def testAA : AliasAnalysis :=
  { idinfo := [(1, 1), (10, 2), (4, 3), (5, 4), (6, 5)],
    info := [{ part := 0, noalias := true }, { part := 1, noalias := true },
             { part := 2, noalias := true }, { part := 3 }, { part := 4 }] }

def cexQ : Value :=
  { id := 20, op := Op.OpAddr, typ := ptrTy, aux := Aux.autoSym 9, args := [1] }

def cexPhi : Value :=
  { id := 21, op := Op.OpPhi, typ := ptrTy, args := [20, 20] }

def cexCopy : Value :=
  { id := 22, op := Op.OpCopy, typ := ptrTy, args := [20] }

def cexF : Func := { values := [vsp, cexQ, cexPhi, cexCopy] }

def cexAA : AliasAnalysis :=
  { idinfo := [(20, 1)], info := [{ part := 0, noalias := true }] }

def cexX : Value :=
  { id := 30, op := Op.OpAddr, typ := ptrTy, aux := Aux.autoSym 7, args := [1] }

def cexY : Value :=
  { id := 31, op := Op.OpAddr, typ := ptrTy, aux := Aux.autoSym 8, args := [1] }

def cexPhi2 : Value :=
  { id := 32, op := Op.OpPhi, typ := ptrTy, args := [30, 31] }

def cexCopy2 : Value :=
  { id := 33, op := Op.OpCopy, typ := ptrTy, args := [32] }

def cexF2 : Func := { values := [vsp, cexX, cexY, cexPhi2, cexCopy2] }

def cexF3 : Func := { values := [vsp, cexQ, cexCopy] }

def roAddr : Value :=
  { id := 51, op := Op.OpAddr, typ := ptrTy, aux := Aux.externSym 5 true,
    args := [2] }

def roMem : Value := { id := 52, op := Op.OpInitMem, typ := memTy }

def roLoad : Value :=
  { id := 53, op := Op.OpLoad, typ := i64Ty, args := [51, 52] }

def roStore : Value :=
  { id := 54, op := Op.OpStore, typ := memTy, aux := Aux.typ i64Ty,
    args := [4, 1, 52] }

def atomStore : Value :=
  { id := 55, op := Op.OpAtomicStore, typ := memTy, args := [4, 1, 52] }

def noaliasLoad : Value :=
  { id := 56, op := Op.OpLoad, typ := i64Ty, args := [4, 52] }

def roF : Func :=
  { values := [vsp, vsb, vauto0, roAddr, roMem, roLoad, roStore, atomStore,
               noaliasLoad] }

def roAA : AliasAnalysis :=
  { idinfo := [(51, 1), (4, 2)],
    info := [{ part := 0, readonly := true }, { part := 1, noalias := true }] }

def struct24Ty : Ty := { size := 24 }

def zPtr : Value :=
  { id := 40, op := Op.OpAddr, typ := ptrTy, aux := Aux.autoSym 4, args := [1] }

def zInit : Value := { id := 41, op := Op.OpInitMem, typ := memTy }

def zZero : Value :=
  { id := 42, op := Op.OpZero, typ := memTy, auxInt := 24,
    aux := Aux.typ struct24Ty, args := [40, 41] }

def zFromBool : Value :=
  { id := 43, op := Op.OpOffPtr, typ := ptrTy, auxInt := 20, args := [40] }

def zLoadBool : Value :=
  { id := 44, op := Op.OpLoad, typ := boolTy, args := [43, 42] }

def zFrom64 : Value :=
  { id := 45, op := Op.OpOffPtr, typ := ptrTy, auxInt := 16, args := [40] }

def zLoad64 : Value :=
  { id := 46, op := Op.OpLoad, typ := i64Ty, args := [45, 42] }

def zF : Func :=
  { values := [vsp, zPtr, zInit, zZero, zFromBool, zLoadBool, zFrom64,
               zLoad64] }

def zAA : AliasAnalysis := {}

def f64Ty : Ty := { size := 8, isFloat := true }

def sVal : Value := { id := 60, op := Op.OpConst64, typ := i64Ty }

def sStore : Value :=
  { id := 61, op := Op.OpStore, typ := memTy, aux := Aux.typ i64Ty,
    args := [4, 60, 41] }

def sLoad : Value :=
  { id := 62, op := Op.OpLoad, typ := i64Ty, args := [4, 61] }

def sValF : Value := { id := 63, op := Op.OpConst64F, typ := f64Ty }

def sStoreF : Value :=
  { id := 64, op := Op.OpStore, typ := memTy, aux := Aux.typ f64Ty,
    args := [4, 63, 41] }

def sF : Func :=
  { values := [vsp, vauto0, zInit, sVal, sStore, sLoad, sValF, sStoreF] }

def wInit : Value := { id := 100, op := Op.OpInitMem, typ := memTy }

def wLoad : Value :=
  { id := 99, op := Op.OpLoad, typ := i64Ty, args := [4, 100] }

def wStore (i : Nat) : Value :=
  { id := 101 + i, op := Op.OpStore, typ := memTy, aux := Aux.typ i64Ty,
    args := [5, 1, 100 + i] }

def wF : Func :=
  { values := [vsp, vauto0, vauto1, wInit, wLoad] ++
      (List.range 12).map wStore }

def witTree : DomTree := { parents := [0, 0, 1, 1, 2] }

def witLoops : LoopNest :=
  { b2l := [none, some 0, some 0, none, none], headers := [1], depths := [1] }

def witUses : List UseSite :=
  [{ userBlock := 2 }, { userBlock := 4, phiPred := some 3 }]

lemma LoopWF.header_anc {t : DomTree} {L : LoopNest} (h : LoopWF t L)
    {b l : Nat} (hl : loopOf L b = some l) :
    anc t (headerOf L l) b = true := by
  have hlt : b < L.b2l.length := by
    by_contra hge
    have hnone : L.b2l[b]? = none := List.getElem?_eq_none (by omega)
    simp [loopOf, hnone] at hl
  have := h.1 b hlt
  simpa [loopHeaderOk, hl] using this

/-- C1 (amended): for an alias query on two non-phi pointers whose
stripped base pointers are distinct, the partition clauses of the claim
hold: known different partitions give MustNotAlias, the same known
partition gives MayAlias, and otherwise a NonEscaping (Noalias) flag on
either base gives MustNotAlias.  As stated, the claim fails when one of
the queried pointers is a phi (see the counterexample). -/
theorem alias_distinct_bases
    (f : Func) (aa : AliasAnalysis) (b c bb cb : Value) (bw cw : Int)
    (hwf : AAWF aa)
    (hbp : b.op ≠ Op.OpPhi) (hcp : c.op ≠ Op.OpPhi)
    (hne : b.id ≠ c.id)
    (hb : ptrbase f b = some bb) (hc : ptrbase f c = some cb)
    (hbases : bb.id ≠ cb.id) :
    (partitionOf aa bb ≠ -1 → partitionOf aa cb ≠ -1 →
      partitionOf aa bb ≠ partitionOf aa cb →
      aliasQ f aa b bw c cw = some ARel.mustNotAlias) ∧
    (partitionOf aa bb ≠ -1 → partitionOf aa bb = partitionOf aa cb →
      aliasQ f aa b bw c cw = some ARel.mayAlias) ∧
    (¬ (partitionOf aa bb ≠ -1 ∧ partitionOf aa cb ≠ -1) →
      (isNoalias aa bb = true ∨ isNoalias aa cb = true) →
      aliasQ f aa b bw c cw = some ARel.mustNotAlias) := by
  have hq : aliasQ f aa b bw c cw = aliasCore f aa b bw c cw := by
    simp only [aliasQ, aliasF, if_neg hne]
    rw [if_neg]
    simp [hbp, hcp]
  have hflag : ∀ v : Value, isNoalias aa v = true → partitionOf aa v ≠ -1 := by
    intro v hv
    unfold isNoalias at hv
    unfold partitionOf
    cases hinfo : infoFor aa v with
    | none => simp [hinfo] at hv
    | some i =>
      simp only [hinfo] at hv ⊢
      have hmem : i ∈ aa.info := by
        unfold infoFor at hinfo
        simp only at hinfo
        split at hinfo
        · exact absurd hinfo (by simp)
        · exact List.get?_mem hinfo
      have := hwf i hmem
      omega
  rw [hq]
  unfold aliasCore
  rw [hb, hc]
  simp only [if_neg hbases]
  refine ⟨?_, ?_, ?_⟩
  · intro h1 h2 h3
    rw [if_pos ⟨h3, h1, h2⟩]
  · intro h1 h2
    rw [if_neg (by tauto), if_pos h2]
  · intro h1 h2
    rw [if_neg (by tauto)]
    rw [if_neg ?hne2]
    case hne2 =>
      intro heq
      rcases h2 with h2 | h2
      · have := hflag bb h2
        rcases Classical.em (partitionOf aa cb = -1) with hc1 | hc1
        · rw [heq] at this; exact this hc1
        · exact h1 ⟨this, hc1⟩
      · have := hflag cb h2
        rcases Classical.em (partitionOf aa bb = -1) with hc1 | hc1
        · rw [← heq] at this; exact this hc1
        · exact h1 ⟨hc1, this⟩
    rw [if_pos ?hflagpos]
    case hflagpos =>
      rcases h2 with h2 | h2 <;> simp [h2]

theorem alias_distinct_bases_cex :
    ptrbase cexF cexPhi = some cexPhi ∧
    ptrbase cexF cexCopy = some cexQ ∧
    cexPhi.id ≠ cexQ.id ∧
    partitionOf cexAA cexPhi = -1 ∧
    isNoalias cexAA cexQ = true ∧
    AAWF cexAA ∧
    aliasQ cexF cexAA cexPhi 8 cexCopy 8 = some ARel.mustAlias := by
  refine ⟨by decide, by decide, by decide, by decide, by decide, by decide, by decide⟩

theorem alias_distinct_bases_wit :
    aliasQ testFunc testAA vauto0 8 vauto1 8 = some ARel.mustNotAlias :=
  (alias_distinct_bases testFunc testAA vauto0 vauto1 vauto0 vauto1 8 8
    (by decide) (by decide) (by decide) (by decide) (by decide) (by decide)
    (by decide)).1 (by decide) (by decide) (by decide)

lemma overlap_true_iff (boff bw coff cw : Int) (hbw : 0 < bw) (hcw : 0 < cw) :
    overlap boff bw coff cw = true ↔
      ¬ (boff + bw ≤ coff ∨ coff + cw ≤ boff) := by
  unfold overlap
  split_ifs with h <;> simp <;> omega

/-- C2 (amended): for two distinct non-phi pointers whose offset/copy
wrappers strip to the identical base value with constant offsets, and
positive access widths, equal offsets with equal widths give MustAlias,
disjoint windows give MustNotAlias, and overlapping windows give
MayAlias.  As stated, the claim fails for phi operands and for
zero-width windows (see the counterexample). -/
theorem alias_same_base
    (f : Func) (aa : AliasAnalysis) (b c bb cb : Value) (i : Nat)
    (boff coff bw cw : Int)
    (hbp : b.op ≠ Op.OpPhi) (hcp : c.op ≠ Op.OpPhi) (hne : b.id ≠ c.id)
    (hb : ptrbase f b = some bb) (hc : ptrbase f c = some cb)
    (hbase : bb.id = cb.id)
    (hob : offsplit f b = some (i, boff))
    (hoc : offsplit f c = some (i, coff))
    (hbw : 0 < bw) (hcw : 0 < cw) :
    (boff = coff ∧ bw = cw → aliasQ f aa b bw c cw = some ARel.mustAlias) ∧
    (boff + bw ≤ coff ∨ coff + cw ≤ boff →
      aliasQ f aa b bw c cw = some ARel.mustNotAlias) ∧
    (¬ (boff = coff ∧ bw = cw) → ¬ (boff + bw ≤ coff ∨ coff + cw ≤ boff) →
      aliasQ f aa b bw c cw = some ARel.mayAlias) := by
  have hq : aliasQ f aa b bw c cw =
      (if boff = coff ∧ bw = cw then some ARel.mustAlias
       else if overlap boff bw coff cw then some ARel.mayAlias
       else some ARel.mustNotAlias) := by
    simp only [aliasQ, aliasF, if_neg hne]
    rw [if_neg (by simp [hbp, hcp])]
    unfold aliasCore
    rw [hb, hc]
    simp only [if_pos hbase, hob, hoc]
    simp
  rw [hq]
  refine ⟨?_, ?_, ?_⟩
  · intro h
    rw [if_pos h]
  · intro h
    rw [if_neg (by omega), if_neg ?hov]
    case hov =>
      rw [overlap_true_iff boff bw coff cw hbw hcw]
      simp only [not_not]
      exact h
  · intro h1 h2
    rw [if_neg h1, if_pos ?hov2]
    case hov2 =>
      rw [overlap_true_iff boff bw coff cw hbw hcw]
      exact h2

theorem alias_same_base_cex :
    (offsplit cexF2 cexPhi2 = some (32, 0) ∧
     offsplit cexF2 cexCopy2 = some (32, 0) ∧
     cexPhi2.id ≠ cexCopy2.id ∧
     aliasQ cexF2 cexAA cexPhi2 8 cexCopy2 8 = some ARel.mayAlias) ∧
    (offsplit cexF3 cexQ = some (20, 0) ∧
     offsplit cexF3 cexCopy = some (20, 0) ∧
     ptrbase cexF3 cexQ = some cexQ ∧
     ptrbase cexF3 cexCopy = some cexQ ∧
     (0 : Int) + 0 ≤ 0 ∧
     aliasQ cexF3 cexAA cexQ 5 cexCopy 0 = some ARel.mayAlias) := by
  exact ⟨⟨by decide, by decide, by decide, by decide⟩,
         ⟨by decide, by decide, by decide, by decide, by decide, by decide⟩⟩

theorem alias_same_base_wit :
    aliasQ testFunc testAA vlo0 4 vhi0 4 = some ARel.mustNotAlias :=
  (alias_same_base testFunc testAA vlo0 vhi0 vauto0 vauto0 4 0 4 4 4
    (by decide) (by decide) (by decide) (by decide) (by decide) (by decide)
    (by decide) (by decide) (by decide) (by decide)).2.1 (by decide)

lemma clobbersSpecial_cases (f : Func) (mem load : Value)
    (h3 : mem.op ≠ Op.OpInitMem) (h4 : mem.op ≠ Op.OpVarDef)
    (h5 : mem.op ≠ Op.OpVarKill) (h6 : mem.op ≠ Op.OpVarLive)
    (h7 : mem.op ≠ Op.OpKeepAlive) :
    clobbersSpecial f mem load = none ∨
    clobbersSpecial f mem load = some (some false) := by
  cases hop : mem.op <;> simp_all [clobbersSpecial]

/-- C5 (amended): for every load whose base address lies in a ReadOnly
partition, both versions of clobbers return false for every memory
operation that does not hit an earlier special case of the switch
(memory-initialization, the VarDef/VarKill/VarLive scope markers, and
KeepAlive).  As stated, the claim fails for memory-initialization,
which clobbers read-only loads too (see the counterexample). -/
theorem clobbers_readonly
    (f : Func) (aa : AliasAnalysis) (mem load base : Value)
    (h1 : mem.op ≠ Op.OpPhi) (h2 : mem.op ≠ Op.OpSelect1)
    (h3 : mem.op ≠ Op.OpInitMem) (h4 : mem.op ≠ Op.OpVarDef)
    (h5 : mem.op ≠ Op.OpVarKill) (h6 : mem.op ≠ Op.OpVarLive)
    (h7 : mem.op ≠ Op.OpKeepAlive)
    (hm : (MemoryArg f mem).isSome = true)
    (hb : loadBase f load = some base)
    (hro : isReadOnly aa base = true) :
    clobbers f aa mem load = some false ∧
    clobbersStrict f aa mem load = some false := by
  obtain ⟨ma, hma⟩ := Option.isSome_iff_exists.mp hm
  rcases clobbersSpecial_cases f mem load h3 h4 h5 h6 h7 with hs | hs <;>
    constructor <;>
      simp [clobbers, clobbersStrict, if_neg h1, if_neg h2, hs, hma, hb, hro]

theorem clobbers_readonly_cex :
    loadBase roF roLoad = some roAddr ∧
    isReadOnly roAA roAddr = true ∧
    roMem.op = Op.OpInitMem ∧
    clobbers roF roAA roMem roLoad = some true ∧
    clobbersStrict roF roAA roMem roLoad = some true := by
  exact ⟨by decide, by decide, by decide, by decide, by decide⟩

theorem clobbers_readonly_wit :
    clobbers roF roAA roStore roLoad = some false ∧
    clobbersStrict roF roAA roStore roLoad = some false :=
  clobbers_readonly roF roAA roStore roLoad roAddr
    (by decide) (by decide) (by decide) (by decide) (by decide) (by decide)
    (by decide) (by decide) (by decide) (by decide)

lemma clobbersSpecial_none (f : Func) (mem load : Value)
    (h3 : mem.op ≠ Op.OpInitMem) (h4 : mem.op ≠ Op.OpVarDef)
    (h5 : mem.op ≠ Op.OpVarKill) (h6 : mem.op ≠ Op.OpVarLive)
    (h7 : mem.op ≠ Op.OpKeepAlive) (h8 : mem.op ≠ Op.OpCopy)
    (h9 : mem.op ≠ Op.OpConvert) :
    clobbersSpecial f mem load = none := by
  cases hop : mem.op <;> simp_all [clobbersSpecial]

/-- C6 (amended): in the evolution point adopting the stricter policy,
every non-call memory operation carrying side effects or producing a
tuple clobbers every load whose base partition is not ReadOnly,
including loads from NonEscaping (Noalias) partitions.  As stated, the
claim fails for read-only loads, whose early-out precedes the
side-effect rule (see the counterexample). -/
theorem clobbersStrict_sideeffect
    (f : Func) (aa : AliasAnalysis) (mem load base : Value)
    (h1 : mem.op ≠ Op.OpPhi) (h2 : mem.op ≠ Op.OpSelect1)
    (h3 : mem.op ≠ Op.OpInitMem) (h4 : mem.op ≠ Op.OpVarDef)
    (h5 : mem.op ≠ Op.OpVarKill) (h6 : mem.op ≠ Op.OpVarLive)
    (h7 : mem.op ≠ Op.OpKeepAlive) (h8 : mem.op ≠ Op.OpCopy)
    (h9 : mem.op ≠ Op.OpConvert)
    (hcall : opCall mem.op = false)
    (hse : opSideEffects mem.op = true ∨ mem.typ.isTuple = true)
    (hm : (MemoryArg f mem).isSome = true)
    (hb : loadBase f load = some base)
    (hro : isReadOnly aa base = false) :
    clobbersStrict f aa mem load = some true := by
  obtain ⟨ma, hma⟩ := Option.isSome_iff_exists.mp hm
  have hs := clobbersSpecial_none f mem load h3 h4 h5 h6 h7 h8 h9
  rcases hse with hse | hse <;>
    simp [clobbersStrict, if_neg h1, if_neg h2, hs, hma, hb, hro, hcall, hse]

theorem clobbersStrict_sideeffect_cex :
    opSideEffects atomStore.op = true ∧
    opCall atomStore.op = false ∧
    loadBase roF roLoad = some roAddr ∧
    clobbersStrict roF roAA atomStore roLoad = some false := by
  exact ⟨by decide, by decide, by decide, by decide⟩

theorem clobbersStrict_sideeffect_wit :
    clobbersStrict roF roAA atomStore noaliasLoad = some true ∧
    isNoalias roAA vauto0 = true :=
  ⟨clobbersStrict_sideeffect roF roAA atomStore noaliasLoad vauto0
    (by decide) (by decide) (by decide) (by decide) (by decide) (by decide)
    (by decide) (by decide) (by decide) (by decide) (Or.inl (by decide))
    (by decide) (by decide) (by decide), by decide⟩

/-- C7 (code bug): the one-byte load at offset 20 of a 24-byte
bulk-zeroed object satisfies the claim's coverage condition
20 + 1 <= 24, yet loadfollow does not forward it, because the code
compares the zeroed width against the address operand's pointer-type
size (20 + 8 > 24) instead of the load's width; an in-range load is
forwarded to the type-correct zero constant. -/
theorem constzero_zero_forwarding :
    offsplit zF zFromBool = some (zPtr.id, 20) ∧
    ptrbase zF zFromBool = some zPtr ∧
    (20 : Int) + zLoadBool.typ.size ≤ zZero.auxInt ∧
    loadfollow zF zAA zLoadBool zZero.id = none ∧
    loadfollow zF zAA zLoad64 zZero.id = some (Fwd.czero Op.OpConst64 i64Ty) := by
  refine ⟨by decide, by decide, by decide, ?_, ?_⟩ <;> rfl

lemma phielimValue_nonphi (v : Value) (h : v.op ≠ Op.OpPhi) :
    phielimValue v = v := by
  simp [phielimValue, h]

/-- C8: when the store-forwarding walk reaches a store whose address
and width the alias engine proves MustAlias with the load's, the load
is forwarded to the stored value, unless the load's type and the
stored value's type disagree on floatness, in which case forwarding
returns no result and the load is left unchanged. -/
theorem loadfollow_store_mustalias
    (f : Func) (aa : AliasAnalysis) (v fromv mem ptr val : Value) (st : Ty)
    (fa pa va memId : Nat)
    (hv : v.op = Op.OpLoad)
    (hfa : v.args.head? = some fa) (hfl : lookup f fa = some fromv)
    (hm : lookup f memId = some mem)
    (hop : mem.op = Op.OpStore) (haux : mem.aux = Aux.typ st)
    (hpa : mem.args.head? = some pa) (hva : mem.args.get? 1 = some va)
    (hpl : lookup f pa = some ptr) (hvl : lookup f va = some val)
    (hal : aliasQ f aa ptr st.size fromv v.typ.size = some ARel.mustAlias) :
    (v.typ.isFloat = val.typ.isFloat →
      loadfollow f aa v memId = some (Fwd.val val.id)) ∧
    (v.typ.isFloat ≠ val.typ.isFloat →
      loadfollow f aa v memId = none) := by
  have hfuel : 11 * (f.values.length + 1) = (11 * f.values.length + 10) + 1 := by
    ring
  have hpe : phielimValue mem = mem := phielimValue_nonphi mem (by simp [hop])
  have hstep : ∀ n : Nat, loadfollowF f aa (n + 1) v memId [] =
      (if v.typ.isFloat ≠ val.typ.isFloat then none
       else some (Fwd.val val.id)) := by
    intro n
    simp only [loadfollowF, hv, hfa, hfl, hm, hpe, hop, haux, hpa, hva, hpl,
      hvl, hal]
    simp
  constructor <;> intro hfloat <;>
    simp only [loadfollow, hfuel, hstep] <;> simp [hfloat]

theorem loadfollow_store_mustalias_wit :
    loadfollow sF zAA sLoad sStore.id = some (Fwd.val sVal.id) ∧
    loadfollow sF zAA sLoad sStoreF.id = none :=
  ⟨(loadfollow_store_mustalias sF zAA sLoad vauto0 sStore vauto0 sVal i64Ty
      4 4 60 61 (by decide) (by decide) (by decide) (by decide) (by decide)
      (by decide) (by decide) (by decide) (by decide) (by decide)
      (by decide)).1 (by decide),
   (loadfollow_store_mustalias sF zAA sLoad vauto0 sStoreF vauto0 sValF f64Ty
      4 4 63 64 (by decide) (by decide) (by decide) (by decide) (by decide)
      (by decide) (by decide) (by decide) (by decide) (by decide)
      (by decide)).2 (by decide)⟩

lemma cwArgsAux_growth (k : Nat → List Nat → Option (Bool × List Nat))
    (hk : ∀ a s b s', k a s = some (b, s') → s.length ≤ s'.length) :
    ∀ args set b s', cwArgsAux k args set = some (b, s') →
      set.length ≤ s'.length := by
  intro args
  induction args with
  | nil =>
    intro set b s' h
    simp only [cwArgsAux] at h
    injection h with h
    injection h with h1 h2
    subst h2
    omega
  | cons a rest ih =>
    intro set b s' h
    simp only [cwArgsAux] at h
    cases hk0 : k a set with
    | none => rw [hk0] at h; exact absurd h (by simp)
    | some p =>
      obtain ⟨b0, s0⟩ := p
      rw [hk0] at h
      have hs0 := hk a set b0 s0 hk0
      cases b0 with
      | false =>
        simp only at h
        injection h with h
        injection h with h1 h2
        subst h2
        omega
      | true =>
        simp only at h
        exact le_trans hs0 (ih s0 b s' h)

lemma clobberwalkF_growth (f : Func) (aa : AliasAnalysis) (load : Value)
    (endId : Nat) :
    ∀ fuel memId set b s',
      clobberwalkF f aa load endId fuel memId set = some (b, s') →
      set.length ≤ s'.length := by
  intro fuel
  induction fuel with
  | zero =>
    intro memId set b s' h
    exact absurd h (by simp [clobberwalkF])
  | succ fuel ih =>
    intro memId set b s' h
    simp only [clobberwalkF] at h
    split_ifs at h with h1 h2 h3
    · injection h with h; injection h with ha hb; subst hb; omega
    · injection h with h; injection h with ha hb; subst hb; omega
    · injection h with h; injection h with ha hb; subst hb; omega
    · cases hlk : lookup f memId with
      | none => rw [hlk] at h; exact absurd h (by simp)
      | some mem =>
        rw [hlk] at h
        simp only at h
        by_cases hphi : mem.op = Op.OpPhi
        · rw [if_pos hphi] at h
          cases hargs : cwArgsAux
              (fun a s => clobberwalkF f aa load endId fuel a s)
              (mem.args.drop 1) (memId :: set) with
          | none => rw [hargs] at h; exact absurd h (by simp)
          | some p =>
            obtain ⟨b0, s0⟩ := p
            rw [hargs] at h
            have hg : (memId :: set).length ≤ s0.length :=
              cwArgsAux_growth _ (fun a s b s' hh => ih a s b s' hh)
                (mem.args.drop 1) (memId :: set) b0 s0 hargs
            cases b0 with
            | false =>
              simp only at h
              injection h with h; injection h with ha hb
              subst hb
              simp at hg
              omega
            | true =>
              simp only at h
              cases ha0 : mem.args.head? with
              | none => rw [ha0] at h; exact absurd h (by simp)
              | some a0 =>
                rw [ha0] at h
                have := ih a0 s0 b s' h
                simp at hg
                omega
        · rw [if_neg hphi] at h
          cases hcl : clobbers f aa mem load with
          | none => rw [hcl] at h; exact absurd h (by simp)
          | some cb =>
            rw [hcl] at h
            cases cb with
            | true =>
              simp only at h
              injection h with h; injection h with ha hb
              subst hb
              simp
            | false =>
              simp only at h
              cases hma : MemoryArg f mem with
              | none => rw [hma] at h; exact absurd h (by simp)
              | some m =>
                rw [hma] at h
                have := ih m.id (memId :: set) b s' h
                simp at this
                omega

lemma cwArgsAux_bound (k : Nat → List Nat → Option (Bool × List Nat))
    (hk : ∀ a s b s', k a s = some (b, s') →
      s'.length ≤ max s.length maxmemwalk) :
    ∀ args set b s', cwArgsAux k args set = some (b, s') →
      s'.length ≤ max set.length maxmemwalk := by
  intro args
  induction args with
  | nil =>
    intro set b s' h
    simp only [cwArgsAux] at h
    injection h with h
    injection h with h1 h2
    subst h2
    omega
  | cons a rest ih =>
    intro set b s' h
    simp only [cwArgsAux] at h
    cases hk0 : k a set with
    | none => rw [hk0] at h; exact absurd h (by simp)
    | some p =>
      obtain ⟨b0, s0⟩ := p
      rw [hk0] at h
      have hs0 := hk a set b0 s0 hk0
      cases b0 with
      | false =>
        simp only at h
        injection h with h
        injection h with h1 h2
        subst h2
        omega
      | true =>
        simp only at h
        have := ih s0 b s' h
        omega

lemma clobberwalkF_bound (f : Func) (aa : AliasAnalysis) (load : Value)
    (endId : Nat) :
    ∀ fuel memId set b s',
      clobberwalkF f aa load endId fuel memId set = some (b, s') →
      s'.length ≤ max set.length maxmemwalk := by
  intro fuel
  induction fuel with
  | zero =>
    intro memId set b s' h
    exact absurd h (by simp [clobberwalkF])
  | succ fuel ih =>
    intro memId set b s' h
    simp only [clobberwalkF] at h
    split_ifs at h with h1 h2 h3
    · injection h with h; injection h with ha hb; subst hb; omega
    · injection h with h; injection h with ha hb; subst hb; omega
    · injection h with h; injection h with ha hb; subst hb; omega
    · cases hlk : lookup f memId with
      | none => rw [hlk] at h; exact absurd h (by simp)
      | some mem =>
        rw [hlk] at h
        simp only at h
        by_cases hphi : mem.op = Op.OpPhi
        · rw [if_pos hphi] at h
          cases hargs : cwArgsAux
              (fun a s => clobberwalkF f aa load endId fuel a s)
              (mem.args.drop 1) (memId :: set) with
          | none => rw [hargs] at h; exact absurd h (by simp)
          | some p =>
            obtain ⟨b0, s0⟩ := p
            rw [hargs] at h
            have hb0 : s0.length ≤ max (memId :: set).length maxmemwalk :=
              cwArgsAux_bound _ (fun a s b s' hh => ih a s b s' hh)
                (mem.args.drop 1) (memId :: set) b0 s0 hargs
            simp only [List.length_cons] at hb0
            cases b0 with
            | false =>
              simp only at h
              injection h with h; injection h with ha hb
              subst hb
              simp only [maxmemwalk] at h3 hb0 ⊢
              omega
            | true =>
              simp only at h
              cases ha0 : mem.args.head? with
              | none => rw [ha0] at h; exact absurd h (by simp)
              | some a0 =>
                rw [ha0] at h
                have := ih a0 s0 b s' h
                simp only [maxmemwalk] at h3 this hb0 ⊢
                omega
        · rw [if_neg hphi] at h
          cases hcl : clobbers f aa mem load with
          | none => rw [hcl] at h; exact absurd h (by simp)
          | some cb =>
            rw [hcl] at h
            cases cb with
            | true =>
              simp only at h
              injection h with h; injection h with ha hb
              subst hb
              simp only [maxmemwalk] at h3 ⊢
              simp only [List.length_cons]
              omega
            | false =>
              simp only at h
              cases hma : MemoryArg f mem with
              | none => rw [hma] at h; exact absurd h (by simp)
              | some m =>
                rw [hma] at h
                have := ih m.id (memId :: set) b s' h
                simp only [List.length_cons, maxmemwalk] at this h3 ⊢
                omega

lemma cwArgsAux_congr (k1 k2 : Nat → List Nat → Option (Bool × List Nat))
    (P : List Nat → Prop)
    (hmono : ∀ s s', s.length ≤ s'.length → P s → P s')
    (hg : ∀ a s b s', k1 a s = some (b, s') → s.length ≤ s'.length)
    (hk : ∀ a s, P s → k1 a s = k2 a s) :
    ∀ args set, P set → cwArgsAux k1 args set = cwArgsAux k2 args set := by
  intro args
  induction args with
  | nil => intro set hP; rfl
  | cons a rest ih =>
    intro set hP
    simp only [cwArgsAux]
    rw [← hk a set hP]
    cases hk0 : k1 a set with
    | none => rfl
    | some p =>
      obtain ⟨b0, s0⟩ := p
      cases b0 with
      | false => rfl
      | true =>
        simp only
        exact ih s0 (hmono set s0 (hg a set true s0 hk0) hP)

lemma clobberwalkF_fuel (f : Func) (aa : AliasAnalysis) (load : Value)
    (endId : Nat) :
    ∀ f1 f2 memId set, 1 ≤ f1 → 1 ≤ f2 →
      maxmemwalk + 1 ≤ f1 + set.length → maxmemwalk + 1 ≤ f2 + set.length →
      clobberwalkF f aa load endId f1 memId set =
        clobberwalkF f aa load endId f2 memId set := by
  intro f1
  induction f1 with
  | zero => intro f2 memId set h1; omega
  | succ f1 ih =>
    intro f2 memId set _ hf2 hb1 hb2
    obtain ⟨g2, rfl⟩ : ∃ g2, f2 = g2 + 1 := ⟨f2 - 1, by omega⟩
    simp only [clobberwalkF]
    split_ifs with h1 h2 h3
    · rfl
    · rfl
    · rfl
    · cases hlk : lookup f memId with
      | none => rfl
      | some mem =>
        simp only
        simp only [maxmemwalk] at h3 hb1 hb2
        have hlen : set.length ≤ 9 := by omega
        have hf1' : 1 ≤ f1 := by omega
        have hg2' : 1 ≤ g2 := by omega
        by_cases hphi : mem.op = Op.OpPhi
        · simp only [if_pos hphi]
          have hcongr : cwArgsAux
              (fun a s => clobberwalkF f aa load endId f1 a s)
              (mem.args.drop 1) (memId :: set) =
            cwArgsAux (fun a s => clobberwalkF f aa load endId g2 a s)
              (mem.args.drop 1) (memId :: set) := by
            apply cwArgsAux_congr _ _
              (fun s => maxmemwalk + 1 ≤ f1 + s.length ∧
                        maxmemwalk + 1 ≤ g2 + s.length)
            · intro s s' hle hP
              simp only [maxmemwalk] at hP ⊢
              omega
            · intro a s b s' hh
              exact clobberwalkF_growth f aa load endId f1 a s b s' hh
            · intro a s hP
              exact ih g2 a s hf1' hg2' hP.1 hP.2
            · simp only [maxmemwalk, List.length_cons]
              omega
          rw [hcongr]
          cases hargs : cwArgsAux
              (fun a s => clobberwalkF f aa load endId g2 a s)
              (mem.args.drop 1) (memId :: set) with
          | none => rfl
          | some p =>
            obtain ⟨b0, s0⟩ := p
            cases b0 with
            | false => rfl
            | true =>
              simp only
              cases ha0 : mem.args.head? with
              | none => rfl
              | some a0 =>
                have hgrow : (memId :: set).length ≤ s0.length := by
                  apply cwArgsAux_growth _
                    (fun a s b s' hh =>
                      clobberwalkF_growth f aa load endId g2 a s b s' hh)
                    (mem.args.drop 1) (memId :: set) true s0 hargs
                simp only [List.length_cons] at hgrow
                exact ih g2 a0 s0 hf1' hg2' (by simp [maxmemwalk]; omega)
                  (by simp [maxmemwalk]; omega)
        · simp only [if_neg hphi]
          cases hcl : clobbers f aa mem load with
          | none => rfl
          | some cb =>
            cases cb with
            | true => rfl
            | false =>
              simp only
              cases hma : MemoryArg f mem with
              | none => rfl
              | some m =>
                exact ih g2 m.id (memId :: set) hf1' hg2'
                  (by simp [maxmemwalk]; omega) (by simp [maxmemwalk]; omega)

/-- C4: the clobber walk is bounded: maxmemwalk is 10; the visited set
of any completed walk started from an empty set never exceeds
maxmemwalk values; any fuel of at least maxmemwalk + 1 computes the
same result as the canonical walk (termination); a walk reaching a
fresh memory value with the visited set full gives up and answers
false; and a failed walk makes sinkLoad fail, leaving the load in
place. -/
theorem clobberwalk_bounded (f : Func) (aa : AliasAnalysis) (load : Value)
    (endId memId : Nat) :
    maxmemwalk = 10 ∧
    (∀ b s, clobberwalk f aa load endId memId [] = some (b, s) →
      s.length ≤ maxmemwalk) ∧
    (∀ fuel, maxmemwalk + 1 ≤ fuel →
      clobberwalkF f aa load endId fuel memId [] =
        clobberwalk f aa load endId memId []) ∧
    (∀ fuel set, 1 ≤ fuel → maxmemwalk ≤ set.length → memId ≠ endId →
      memId ∉ set →
      clobberwalkF f aa load endId fuel memId set = some (false, set)) ∧
    (∀ v bId mr inId vm s,
      v.op = Op.OpLoad → ((mr.getD bId {}).entry = some inId) →
      MemoryArg f v = some vm →
      clobberwalk f aa v vm.id inId [] = some (false, s) →
      sinkLoad f aa v bId mr = some none) := by
  refine ⟨rfl, ?_, ?_, ?_, ?_⟩
  · intro b s h
    have := clobberwalkF_bound f aa load endId (maxmemwalk + 2) memId [] b s h
    simpa using this
  · intro fuel hf
    apply clobberwalkF_fuel f aa load endId fuel (maxmemwalk + 2) memId []
    · simp only [maxmemwalk] at hf ⊢; omega
    · simp only [maxmemwalk]; omega
    · simp only [maxmemwalk] at hf ⊢; omega
    · simp only [maxmemwalk]; omega
  · intro fuel set hf hlen hne hnotin
    obtain ⟨g, rfl⟩ : ∃ g, fuel = g + 1 := ⟨fuel - 1, by omega⟩
    simp only [clobberwalkF, if_neg hne]
    rw [if_neg hnotin, if_pos hlen]
  · intro v bId mr inId vm s hv hentry hma hcw
    simp only [sinkLoad, hv, hentry, hma, hcw]
    simp

theorem clobberwalk_bounded_wit :
    clobberwalk wF testAA wLoad 100 112 [] =
      some (false, [103, 104, 105, 106, 107, 108, 109, 110, 111, 112]) ∧
    clobbers wF testAA (wStore 0) wLoad = some false ∧
    (∀ b s, clobberwalk wF testAA wLoad 100 112 [] = some (b, s) →
      s.length ≤ maxmemwalk) ∧
    clobberwalkF wF testAA wLoad 100 25 112 [] =
      clobberwalk wF testAA wLoad 100 112 [] ∧
    sinkLoad wF testAA wLoad 0 [{ entry := some 112 }] = some none := by
  have H := clobberwalk_bounded wF testAA wLoad 100 112
  refine ⟨by decide, by decide, H.2.1, H.2.2.1 25 (by decide), ?_⟩
  exact H.2.2.2.2 wLoad 0 [{ entry := some 112 }] 112 wInit
    [103, 104, 105, 106, 107, 108, 109, 110, 111, 112]
    (by decide) (by decide) (by decide) (by decide)

lemma idom_zero {t : DomTree} (h : DomWF t) : idomOf t 0 = 0 := by
  by_cases hl : 0 < t.parents.length
  · exact (h 0 hl).1 rfl
  · have hnone : t.parents[0]? = none := List.getElem?_eq_none (by omega)
    simp [idomOf, hnone]

lemma idom_lt {t : DomTree} (h : DomWF t) {b : Nat} (hb : b ≠ 0) :
    idomOf t b < b := by
  by_cases hl : b < t.parents.length
  · exact (h b hl).2 hb
  · have hnone : t.parents[b]? = none := List.getElem?_eq_none (by omega)
    have : idomOf t b = 0 := by simp [idomOf, hnone]
    omega

lemma ancF_fuel {t : DomTree} (h : DomWF t) :
    ∀ b, ∀ fuel a, b + 1 ≤ fuel → ancF t fuel a b = anc t a b := by
  intro b
  induction b using Nat.strong_induction_on with
  | _ b ih =>
    intro fuel a hf
    obtain ⟨g, rfl⟩ : ∃ g, fuel = g + 1 := ⟨fuel - 1, by omega⟩
    by_cases hab : a = b
    · simp [anc, ancF, hab]
    · by_cases hb0 : b = 0
      · simp [anc, ancF, hab, hb0]
      · have hlt := idom_lt h hb0
        have h1 : ancF t (g + 1) a b = ancF t g a (idomOf t b) := by
          simp [ancF, hab, hb0]
        have h2 : anc t a b = ancF t b a (idomOf t b) := by
          simp [anc, ancF, hab, hb0]
        rw [h1, h2, ih (idomOf t b) hlt g a (by omega),
          ih (idomOf t b) hlt b a (by omega)]

lemma anc_refl (t : DomTree) (a : Nat) : anc t a a = true := by
  simp [anc, ancF]

lemma anc_idom {t : DomTree} (h : DomWF t) {b : Nat} (hb : b ≠ 0) :
    anc t (idomOf t b) b = true := by
  have hlt := idom_lt h hb
  by_cases hab : idomOf t b = b
  · omega
  · have : anc t (idomOf t b) b = ancF t b (idomOf t b) (idomOf t b) := by
      simp [anc, ancF, hab, hb]
    rw [this, ancF_fuel h (idomOf t b) b (idomOf t b) (by omega)]
    exact anc_refl t _

lemma anc_step {t : DomTree} (h : DomWF t) {a b : Nat} (hb : b ≠ 0)
    (ha : anc t a (idomOf t b) = true) : anc t a b = true := by
  by_cases hab : a = b
  · simp [anc, ancF, hab]
  · have hlt := idom_lt h hb
    have h2 : anc t a b = ancF t b a (idomOf t b) := by
      simp [anc, ancF, hab, hb]
    rw [h2, ancF_fuel h (idomOf t b) b a (by omega)]
    exact ha

lemma anc_le {t : DomTree} (h : DomWF t) :
    ∀ b a, anc t a b = true → a ≤ b := by
  intro b
  induction b using Nat.strong_induction_on with
  | _ b ih =>
    intro a ha
    by_cases hab : a = b
    · omega
    · by_cases hb0 : b = 0
      · simp [anc, ancF, hab, hb0] at ha
        omega
      · have hlt := idom_lt h hb0
        have h2 : anc t a b = ancF t b a (idomOf t b) := by
          simp [anc, ancF, hab, hb0]
        rw [h2, ancF_fuel h (idomOf t b) b a (by omega)] at ha
        have := ih (idomOf t b) hlt a ha
        omega

lemma anc_trans {t : DomTree} (h : DomWF t) :
    ∀ c a b, anc t a b = true → anc t b c = true → anc t a c = true := by
  intro c
  induction c using Nat.strong_induction_on with
  | _ c ih =>
    intro a b hab hbc
    by_cases hbc' : b = c
    · rwa [hbc'] at hab
    · by_cases hc0 : c = 0
      · simp [anc, ancF, hbc', hc0] at hbc
        exact absurd (by omega : b = c) hbc'
      · have hlt := idom_lt h hc0
        have h2 : anc t b c = ancF t c b (idomOf t c) := by
          simp [anc, ancF, hbc', hc0]
        rw [h2, ancF_fuel h (idomOf t c) c b (by omega)] at hbc
        exact anc_step h hc0 (ih (idomOf t c) hlt a b hab hbc)

lemma anc_zero {t : DomTree} (h : DomWF t) : ∀ b, anc t 0 b = true := by
  intro b
  induction b using Nat.strong_induction_on with
  | _ b ih =>
    by_cases hb0 : b = 0
    · subst hb0; exact anc_refl t 0
    · have hlt := idom_lt h hb0
      exact anc_step h hb0 (ih (idomOf t b) hlt)

lemma lcaF_anc {t : DomTree} (h : DomWF t) :
    ∀ n fuel a b, a + b ≤ n → a + b + 1 ≤ fuel →
      anc t (lcaF t fuel a b) a = true ∧ anc t (lcaF t fuel a b) b = true := by
  intro n
  induction n using Nat.strong_induction_on with
  | _ n ih =>
    intro fuel a b hn hf
    obtain ⟨g, rfl⟩ : ∃ g, fuel = g + 1 := ⟨fuel - 1, by omega⟩
    by_cases hab : a = b
    · simp only [lcaF, if_pos hab]
      subst hab
      exact ⟨anc_refl t a, anc_refl t a⟩
    · by_cases hba : b < a
      · have ha0 : a ≠ 0 := by omega
        have hlt := idom_lt h ha0
        simp only [lcaF, if_neg hab, if_pos hba]
        have hrec := ih (idomOf t a + b)
          (by omega) g (idomOf t a) b (le_refl _) (by omega)
        exact ⟨anc_trans h a _ (idomOf t a) hrec.1 (anc_idom h ha0), hrec.2⟩
      · have hb0 : b ≠ 0 := by omega
        have hlt := idom_lt h hb0
        simp only [lcaF, if_neg hab, if_neg hba]
        have hrec := ih (a + idomOf t b)
          (by omega) g a (idomOf t b) (le_refl _) (by omega)
        exact ⟨hrec.1, anc_trans h b _ (idomOf t b) hrec.2 (anc_idom h hb0)⟩

lemma lca_anc {t : DomTree} (h : DomWF t) (a b : Nat) :
    anc t (lca t a b) a = true ∧ anc t (lca t a b) b = true :=
  lcaF_anc h (a + b) (a + b + 1) a b (le_refl _) (le_refl _)

lemma lcaFold_anc {t : DomTree} (h : DomWF t) :
    ∀ us acc, anc t (lcaFold t acc us) acc = true ∧
      ∀ x ∈ us, anc t (lcaFold t acc us) x = true := by
  intro us
  induction us with
  | nil =>
    intro acc
    exact ⟨anc_refl t acc, by intro x hx; exact absurd hx (by simp)⟩
  | cons u rest ih =>
    intro acc
    have hr := ih (lca t acc u)
    have hl := lca_anc h acc u
    refine ⟨anc_trans h acc _ (lca t acc u) hr.1 hl.1, ?_⟩
    intro x hx
    rcases List.mem_cons.mp hx with hx | hx
    · subst hx
      exact anc_trans h x _ (lca t acc x) hr.1 hl.2
    · exact hr.2 x hx

lemma walkupF_anc {t : DomTree} {L : LoopNest} (hD : DomWF t)
    (hL : LoopWF t L) (ol : Option Nat) :
    ∀ b fuel, b + 2 ≤ fuel →
      anc t (walkupF t L ol fuel b) b = true := by
  intro b
  induction b using Nat.strong_induction_on with
  | _ b ih =>
    intro fuel hf
    obtain ⟨g, rfl⟩ : ∃ g, fuel = g + 1 := ⟨fuel - 1, by omega⟩
    simp only [walkupF]
    cases hl : loopOf L b with
    | none => exact anc_refl t b
    | some l =>
      simp only
      split
      · have hh : anc t (headerOf L l) b = true := hL.header_anc hl
        have hle := anc_le hD b (headerOf L l) hh
        by_cases hh0 : headerOf L l = 0
        · rw [hh0, idom_zero hD]
          obtain ⟨g2, rfl⟩ : ∃ g2, g = g2 + 1 := ⟨g - 1, by omega⟩
          simp only [walkupF, hL.2]
          exact anc_zero hD b
        · have hblt : idomOf t (headerOf L l) < headerOf L l := idom_lt hD hh0
          have hrec := ih (idomOf t (headerOf L l)) (by omega) g (by omega)
          exact anc_trans hD b _ (idomOf t (headerOf L l)) hrec
            (anc_trans hD b _ (headerOf L l) (anc_idom hD hh0) hh)
      · exact anc_refl t b

lemma walkupF_depth {t : DomTree} {L : LoopNest} (hD : DomWF t)
    (hL : LoopWF t L) (ol : Option Nat) :
    ∀ b fuel, b + 2 ≤ fuel →
      blockDepth L (walkupF t L ol fuel b) ≤
        (match ol with | none => 0 | some olv => depthOf L olv) := by
  intro b
  induction b using Nat.strong_induction_on with
  | _ b ih =>
    intro fuel hf
    obtain ⟨g, rfl⟩ : ∃ g, fuel = g + 1 := ⟨fuel - 1, by omega⟩
    simp only [walkupF]
    cases hl : loopOf L b with
    | none =>
      simp only [blockDepth, hl]
      cases ol <;> simp
    | some l =>
      simp only
      split
      · next hcond =>
        have hh : anc t (headerOf L l) b = true := hL.header_anc hl
        have hle := anc_le hD b (headerOf L l) hh
        by_cases hh0 : headerOf L l = 0
        · rw [hh0, idom_zero hD]
          obtain ⟨g2, rfl⟩ : ∃ g2, g = g2 + 1 := ⟨g - 1, by omega⟩
          simp only [walkupF, hL.2]
          simp only [blockDepth, hL.2]
          cases ol <;> simp
        · have hblt : idomOf t (headerOf L l) < headerOf L l := idom_lt hD hh0
          exact ih (idomOf t (headerOf L l)) (by omega) g (by omega)
      · next hcond =>
        cases ol with
        | none => simp at hcond
        | some olv =>
          simp only [blockDepth, hl]
          simp at hcond
          omega

/-- C3: after the tighten pass reaches its fixed point, every
relocated value's block — the computed target, which at the fixed
point equals the block the value resides in — dominates every block
in which the value is used, where a use as a phi argument counts as
occurring in the predecessor block of the corresponding argument
position and a control use in the block itself. -/
theorem tighten_dominance (t : DomTree) (L : LoopNest) (orig : Nat)
    (uses : List UseSite) (tg : Nat)
    (hD : DomWF t) (hL : LoopWF t L)
    (htg : computeTarget t L orig uses = some tg) :
    ∀ u ∈ uses, anc t tg (useBlock u) = true := by
  intro u hu
  unfold computeTarget at htg
  cases hm : uses.map useBlock with
  | nil => rw [hm] at htg; exact absurd htg (by simp)
  | cons u0 rest =>
    rw [hm] at htg
    simp only at htg
    injection htg with htg
    have hmem : useBlock u ∈ u0 :: rest := by
      rw [← hm]
      exact List.mem_map_of_mem useBlock hu
    have hfold := lcaFold_anc hD rest u0
    have hanc : anc t (lcaFold t u0 rest) (useBlock u) = true := by
      rcases List.mem_cons.mp hmem with hx | hx
      · rw [hx]; exact hfold.1
      · exact hfold.2 _ hx
    have hwalk : anc t tg (lcaFold t u0 rest) = true := by
      rw [← htg]
      exact walkupF_anc hD hL (loopOf L orig) (lcaFold t u0 rest)
        (lcaFold t u0 rest + 2) (le_refl _)
    exact anc_trans hD (useBlock u) tg (lcaFold t u0 rest) hwalk hanc

/-- C9: the tighten pass's computed target never lies in a loop deeper
than the value's original block: the walk up the immediate-dominator
chain from the loop header stops only once the target's loop depth no
longer exceeds the original block's. -/
theorem tighten_loopdepth (t : DomTree) (L : LoopNest) (orig : Nat)
    (uses : List UseSite) (tg : Nat)
    (hD : DomWF t) (hL : LoopWF t L)
    (htg : computeTarget t L orig uses = some tg) :
    blockDepth L tg ≤ blockDepth L orig := by
  unfold computeTarget at htg
  cases hm : uses.map useBlock with
  | nil => rw [hm] at htg; exact absurd htg (by simp)
  | cons u0 rest =>
    rw [hm] at htg
    simp only at htg
    injection htg with htg
    have hdep := walkupF_depth hD hL (loopOf L orig) (lcaFold t u0 rest)
      (lcaFold t u0 rest + 2) (le_refl _)
    unfold walkup at htg
    rw [htg] at hdep
    refine le_trans hdep ?_
    unfold blockDepth
    cases loopOf L orig <;> simp

theorem tighten_dominance_wit :
    computeTarget witTree witLoops 0 witUses = some 0 ∧
    ∀ u ∈ witUses, anc witTree 0 (useBlock u) = true :=
  ⟨by decide,
   tighten_dominance witTree witLoops 0 witUses 0 (by decide) (by decide)
     (by decide)⟩

theorem tighten_loopdepth_wit :
    computeTarget witTree witLoops 3 [{ userBlock := 2 }] = some 0 ∧
    blockDepth witLoops 0 ≤ blockDepth witLoops 3 :=
  ⟨by decide,
   tighten_loopdepth witTree witLoops 3 [{ userBlock := 2 }] 0 (by decide)
     (by decide) (by decide)⟩

lemma lookup_mem {f : Func} {i : Nat} {v : Value} (h : lookup f i = some v) :
    v ∈ f.values :=
  List.mem_of_find?_eq_some h

lemma ptrbaseF_mem {f : Func} :
    ∀ fuel (v u : Value), ptrbaseF f fuel v = some u →
      u = v ∨ u ∈ f.values := by
  intro fuel
  induction fuel with
  | zero => intro v u h; exact absurd h (by simp [ptrbaseF])
  | succ fuel ih =>
    intro v u h
    simp only [ptrbaseF] at h
    split at h
    all_goals first
      | (injection h with h; exact Or.inl h.symm)
      | (cases ha : v.args.head? with
         | none => rw [ha] at h; simp at h
         | some a =>
           rw [ha] at h
           simp only at h
           cases hl : lookup f a with
           | none => rw [hl] at h; simp at h
           | some w =>
             rw [hl] at h
             simp only at h
             rcases ih w u h with rfl | hm
             · exact Or.inr (lookup_mem hl)
             · exact Or.inr hm)

lemma ptrbase_mem {f : Func} {v u : Value} (hv : v ∈ f.values)
    (h : ptrbase f v = some u) : u ∈ f.values := by
  rcases ptrbaseF_mem _ v u h with rfl | hm
  · exact hv
  · exact hm

lemma infoFor_mem {aa : AliasAnalysis} {v : Value} {i : Ptrinfo}
    (h : infoFor aa v = some i) : i ∈ aa.info := by
  unfold infoFor at h
  simp only at h
  split at h
  · exact absurd h (by simp)
  · exact List.get?_mem h

lemma partitionOf_known {aa : AliasAnalysis} (haa : AAWF aa) {v : Value}
    {i : Ptrinfo} (h : infoFor aa v = some i) : partitionOf aa v ≠ -1 := by
  have := haa i (infoFor_mem h)
  simp only [partitionOf, h]
  omega

lemma isAlloc_infoFor {aa : AliasAnalysis} {v : Value}
    (h : isAlloc aa v = true) : ∃ i, infoFor aa v = some i := by
  unfold isAlloc at h
  cases hinfo : infoFor aa v with
  | none => rw [hinfo] at h; simp at h
  | some i => exact ⟨i, rfl⟩

lemma overlap_symm {o0 w0 o1 w1 : Int} (h0 : 0 < w0) (h1 : 0 < w1) :
    overlap o0 w0 o1 w1 = overlap o1 w1 o0 w0 := by
  unfold overlap
  rcases lt_trichotomy o0 o1 with h | h | h
  · rw [if_neg (by omega), if_pos (by omega)]
  · rw [if_neg (by omega), if_neg (by omega)]
    subst h
    have : (o0 + w0 > o0) = True := by simp; omega
    have h2 : (o0 + w1 > o0) = True := by simp; omega
    simp only [gt_iff_lt]
    rw [decide_eq_true (by omega), decide_eq_true (by omega)]
  · rw [if_pos (by omega), if_neg (by omega)]

lemma aliasCore_symm (f : Func) (aa : AliasAnalysis) {b c : Value}
    {bw cw : Int} (hbw : 0 < bw) (hcw : 0 < cw)
    {bb cb : Value}
    (hbb : ptrbase f b = some bb) (hcb : ptrbase f c = some cb)
    {ob oc : Nat × Int}
    (hob : offsplit f b = some ob) (hoc : offsplit f c = some oc) :
    aliasCore f aa b bw c cw = aliasCore f aa c cw b bw := by
  unfold aliasCore
  rw [hbb, hcb]
  simp only
  by_cases hbase : bb.id = cb.id
  · have hbase' : cb.id = bb.id := hbase.symm
    rw [if_pos hbase, if_pos hbase']
    rw [hob, hoc]
    obtain ⟨bid, boff⟩ := ob
    obtain ⟨cid, coff⟩ := oc
    simp only
    by_cases hid : bid = cid
    · have hid' : cid = bid := hid.symm
      rw [if_pos hid, if_pos hid']
      by_cases h1 : boff = coff ∧ bw = cw
      · have h1' : coff = boff ∧ cw = bw := ⟨h1.1.symm, h1.2.symm⟩
        rw [if_pos h1, if_pos h1']
      · have h1' : ¬ (coff = boff ∧ cw = bw) :=
          fun h => h1 ⟨h.1.symm, h.2.symm⟩
        rw [if_neg h1, if_neg h1', overlap_symm hbw hcw]
    · have hid' : ¬ cid = bid := fun h => hid h.symm
      rw [if_neg hid, if_neg hid']
  · have hbase' : ¬ cb.id = bb.id := fun h => hbase h.symm
    rw [if_neg hbase, if_neg hbase']
    by_cases h1 : partitionOf aa bb ≠ partitionOf aa cb ∧
        partitionOf aa bb ≠ -1 ∧ partitionOf aa cb ≠ -1
    · have h1' : partitionOf aa cb ≠ partitionOf aa bb ∧
          partitionOf aa cb ≠ -1 ∧ partitionOf aa bb ≠ -1 :=
        ⟨fun h => h1.1 h.symm, h1.2.2, h1.2.1⟩
      rw [if_pos h1, if_pos h1']
    · have h1' : ¬ (partitionOf aa cb ≠ partitionOf aa bb ∧
          partitionOf aa cb ≠ -1 ∧ partitionOf aa bb ≠ -1) :=
        fun h => h1 ⟨fun hh => h.1 hh.symm, h.2.2, h.2.1⟩
      rw [if_neg h1, if_neg h1']
      by_cases h2 : partitionOf aa bb = partitionOf aa cb
      · have h2' : partitionOf aa cb = partitionOf aa bb := h2.symm
        rw [if_pos h2, if_pos h2']
      · have h2' : ¬ partitionOf aa cb = partitionOf aa bb :=
          fun h => h2 h.symm
        rw [if_neg h2, if_neg h2']
        by_cases h3 : (isNoalias aa bb || isNoalias aa cb) = true
        · have h3' : (isNoalias aa cb || isNoalias aa bb) = true := by
            revert h3; simp; tauto
          rw [if_pos h3, if_pos h3']
        · have h3' : ¬ (isNoalias aa cb || isNoalias aa bb) = true := by
            revert h3; simp; tauto
          rw [if_neg h3, if_neg h3']
          by_cases h4 : isAlloc aa bb = true ∧ isAlloc aa cb = true
          · have h4' : isAlloc aa cb = true ∧ isAlloc aa bb = true :=
              ⟨h4.2, h4.1⟩
            rw [if_pos h4, if_pos h4']
          · have h4' : ¬ (isAlloc aa cb = true ∧ isAlloc aa bb = true) :=
              fun h => h4 ⟨h.2, h.1⟩
            rw [if_neg h4, if_neg h4']
            by_cases hA : isAlloc aa bb = true ∧
                (cb.op = Op.OpArg ∨ ¬ sdomB f bb.block cb.block = true)
            · rw [if_pos hA]
              by_cases hB : isAlloc aa cb = true ∧
                  (bb.op = Op.OpArg ∨ ¬ sdomB f cb.block bb.block = true)
              · rw [if_pos hB]
              · rw [if_neg hB, if_pos hA]
            · rw [if_neg hA]
              by_cases hB : isAlloc aa cb = true ∧
                  (bb.op = Op.OpArg ∨ ¬ sdomB f cb.block bb.block = true)
              · rw [if_pos hB, if_pos hB]
              · rw [if_neg hB, if_neg hB, if_neg hA]

lemma aliasCore_total (f : Func) (aa : AliasAnalysis) {b c : Value}
    (bw cw : Int) (hb : b ∈ f.values) (hc : c ∈ f.values)
    (hwf : PtrWF f) (hsep : AllocsSep f aa) (haa : AAWF aa) :
    (aliasCore f aa b bw c cw).isSome = true := by
  obtain ⟨bb, hbb⟩ := Option.isSome_iff_exists.mp (hwf b hb).1
  obtain ⟨cb, hcb⟩ := Option.isSome_iff_exists.mp (hwf c hc).1
  obtain ⟨ob, hob⟩ := Option.isSome_iff_exists.mp (hwf b hb).2
  obtain ⟨oc, hoc⟩ := Option.isSome_iff_exists.mp (hwf c hc).2
  unfold aliasCore
  rw [hbb, hcb]
  simp only
  by_cases hbase : bb.id = cb.id
  · rw [if_pos hbase, hob, hoc]
    obtain ⟨bid, boff⟩ := ob
    obtain ⟨cid, coff⟩ := oc
    simp only
    split_ifs <;> simp
  · rw [if_neg hbase]
    split_ifs with h1 h2 h3 h4 <;> try simp
    exfalso
    have hbbm := ptrbase_mem hb hbb
    have hcbm := ptrbase_mem hc hcb
    have hne := hsep bb hbbm cb hcbm hbase h4.1 h4.2
    obtain ⟨i1, hi1⟩ := isAlloc_infoFor h4.1
    obtain ⟨i2, hi2⟩ := isAlloc_infoFor h4.2
    exact h1 ⟨hne, partitionOf_known haa hi1, partitionOf_known haa hi2⟩

lemma alias1_symm (f : Func) (aa : AliasAnalysis) {b c : Value}
    {bw cw : Int} (hbw : 0 < bw) (hcw : 0 < cw)
    (hb : b ∈ f.values) (hc : c ∈ f.values) (hwf : PtrWF f)
    (hbp : b.op ≠ Op.OpPhi) (hcp : c.op ≠ Op.OpPhi) :
    aliasF f aa 1 b bw c cw = aliasF f aa 1 c cw b bw := by
  simp only [aliasF]
  by_cases hid : b.id = c.id
  · have hid' : c.id = b.id := hid.symm
    rw [if_pos hid, if_pos hid']
    by_cases hww : bw = cw
    · rw [if_neg (by omega), if_neg (by omega)]
    · rw [if_pos (by omega), if_pos (by omega)]
  · have hid' : ¬ c.id = b.id := fun h => hid h.symm
    rw [if_neg hid, if_neg hid']
    rw [if_neg (by simp [hbp, hcp]), if_neg (by simp [hbp, hcp])]
    obtain ⟨bb, hbb⟩ := Option.isSome_iff_exists.mp (hwf b hb).1
    obtain ⟨cb, hcb⟩ := Option.isSome_iff_exists.mp (hwf c hc).1
    obtain ⟨ob, hob⟩ := Option.isSome_iff_exists.mp (hwf b hb).2
    obtain ⟨oc, hoc⟩ := Option.isSome_iff_exists.mp (hwf c hc).2
    exact aliasCore_symm f aa hbw hcw hbb hcb hob hoc

lemma alias1_total (f : Func) (aa : AliasAnalysis) {b c : Value}
    (bw cw : Int) (hb : b ∈ f.values) (hc : c ∈ f.values)
    (hwf : PtrWF f) (hsep : AllocsSep f aa) (haa : AAWF aa)
    (hbp : b.op ≠ Op.OpPhi) (hcp : c.op ≠ Op.OpPhi) :
    (aliasF f aa 1 b bw c cw).isSome = true := by
  simp only [aliasF]
  by_cases hid : b.id = c.id
  · rw [if_pos hid]
    split_ifs <;> simp
  · rw [if_neg hid, if_neg (by simp [hbp, hcp])]
    exact aliasCore_total f aa bw cw hb hc hwf hsep haa

lemma mapM_lookup_mem {f : Func} :
    ∀ (args : List Nat) (vs : List Value), args.mapM (lookup f) = some vs →
      ∀ x ∈ vs, x ∈ f.values := by
  intro args
  induction args with
  | nil =>
    intro vs h x hx
    rw [show ([] : List Nat).mapM (lookup f) = some [] from rfl] at h
    injection h with h
    subst h
    exact absurd hx (by simp)
  | cons a rest ih =>
    intro vs h x hx
    rw [List.mapM_cons] at h
    cases hl : lookup f a with
    | none => rw [hl] at h; simp at h
    | some w =>
      rw [hl] at h
      cases hm : rest.mapM (lookup f) with
      | none => rw [hm] at h; simp at h
      | some ws =>
        rw [hm] at h
        simp at h
        subst h
        rcases List.mem_cons.mp hx with rfl | hx
        · exact lookup_mem hl
        · exact ih ws hm x hx

lemma phiSide_mem {f : Func} {v : Value} {vs : List Value}
    (h : phiSide f v = some vs) : ∀ x ∈ vs, x ∈ f.values := by
  unfold phiSide at h
  split at h
  · exact mapM_lookup_mem v.args vs h
  · intro x hx
    cases ha : v.args.head? with
    | none => rw [ha] at h; simp at h
    | some a =>
      rw [ha] at h
      simp only at h
      cases hl : lookup f a with
      | none => rw [hl] at h; simp at h
      | some w =>
        rw [hl] at h
        simp at h
        subst h
        simp at hx
        subst hx
        exact lookup_mem hl

lemma phialiasRow_eval (q : Value → Value → Option ARel) (ret : ARel)
    (bv : Value) :
    ∀ cs, (∀ cv ∈ cs, (q bv cv).isSome = true) →
      phialiasRow q ret bv cs =
        some (cs.all fun cv => decide (q bv cv = some ret)) := by
  intro cs
  induction cs with
  | nil => intro _; simp [phialiasRow]
  | cons cv rest ih =>
    intro hq
    obtain ⟨r, hr⟩ := Option.isSome_iff_exists.mp (hq cv (by simp))
    simp only [phialiasRow, hr]
    by_cases hrr : r = ret
    · subst hrr
      rw [if_pos rfl, ih (fun x hx => hq x (by simp [hx]))]
      simp [hr]
    · rw [if_neg hrr]
      simp [List.all_cons, hr, hrr]

lemma phialiasAll_eval (q : Value → Value → Option ARel) (ret : ARel) :
    ∀ bs cs, (∀ bv ∈ bs, ∀ cv ∈ cs, (q bv cv).isSome = true) →
      phialiasAll q ret bs cs =
        some (bs.all fun bv => cs.all fun cv => decide (q bv cv = some ret)) := by
  intro bs
  induction bs with
  | nil => intro cs _; simp [phialiasAll]
  | cons bv brest ih =>
    intro cs hq
    have hrow := phialiasRow_eval q ret bv cs (fun cv hcv => hq bv (by simp) cv hcv)
    simp only [phialiasAll, hrow]
    by_cases hall : (cs.all fun cv => decide (q bv cv = some ret)) = true
    · rw [hall]
      simp only
      rw [ih cs (fun x hx cv hcv => hq x (by simp [hx]) cv hcv)]
      simp [List.all_cons, hall]
    · rw [Bool.eq_false_iff.mpr hall]
      simp [List.all_cons, Bool.eq_false_iff.mpr hall]

lemma all_all_swap {α β : Type} (p : α → β → Bool) (bs : List α)
    (cs : List β) :
    (bs.all fun b => cs.all fun c => p b c) =
      (cs.all fun c => bs.all fun b => p b c) := by
  rw [Bool.eq_iff_iff]
  simp only [List.all_eq_true]
  exact ⟨fun h c hc b hb => h b hb c hc, fun h b hb c hc => h c hc b hb⟩

lemma all_congr {α : Type} (p q : α → Bool) :
    ∀ l : List α, (∀ x ∈ l, p x = q x) → l.all p = l.all q := by
  intro l
  induction l with
  | nil => intro _; rfl
  | cons x rest ih =>
    intro h
    simp only [List.all_cons, h x (by simp), ih (fun y hy => h y (by simp [hy]))]

lemma phialiasF_symm (f : Func) (aa : AliasAnalysis) {b c : Value}
    {bw cw : Int} (hbw : 0 < bw) (hcw : 0 < cw)
    (hwf : PtrWF f) (hsep : AllocsSep f aa) (haa : AAWF aa) :
    phialiasF f (aliasF f aa 1) b bw c cw =
      phialiasF f (aliasF f aa 1) c cw b bw := by
  unfold phialiasF
  cases hsb : phiSide f b with
  | none => cases hsc : phiSide f c <;> rfl
  | some bs =>
    cases hsc : phiSide f c with
    | none => rfl
    | some cs =>
      simp only
      by_cases hlen : bs.length + cs.length ≤ 2
      · have hlen' : cs.length + bs.length ≤ 2 := by omega
        rw [if_pos hlen, if_pos hlen']
      · have hlen' : ¬ cs.length + bs.length ≤ 2 := by omega
        rw [if_neg hlen, if_neg hlen']
        by_cases hbphi : (bs.any fun bv => bv.op = Op.OpPhi) = true
        · rw [if_pos hbphi]
          by_cases hcphi : (cs.any fun cv => cv.op = Op.OpPhi) = true
          · rw [if_pos hcphi]
          · rw [if_neg hcphi, if_pos hbphi]
        · rw [if_neg hbphi]
          by_cases hcphi : (cs.any fun cv => cv.op = Op.OpPhi) = true
          · rw [if_pos hcphi, if_pos hcphi]
          · rw [if_neg hcphi, if_neg hcphi, if_neg hbphi]
            have hbmem := phiSide_mem hsb
            have hcmem := phiSide_mem hsc
            simp only [List.any_eq_true, not_exists, not_and,
              decide_eq_true_eq] at hbphi hcphi
            have hbnp : ∀ x ∈ bs, x.op ≠ Op.OpPhi := hbphi
            have hcnp : ∀ x ∈ cs, x.op ≠ Op.OpPhi := hcphi
            cases bs with
            | nil => cases cs <;> rfl
            | cons bv0 brest =>
              cases cs with
              | nil => rfl
              | cons cv0 crest =>
                simp only [List.head?_cons]
                have hbm0 : bv0 ∈ f.values := hbmem bv0 (by simp)
                have hcm0 : cv0 ∈ f.values := hcmem cv0 (by simp)
                obtain ⟨ret, hret⟩ := Option.isSome_iff_exists.mp
                  (alias1_total f aa bw cw hbm0 hcm0 hwf hsep haa
                    (hbnp bv0 (by simp)) (hcnp cv0 (by simp)))
                have hsymm0 := alias1_symm f aa hbw hcw hbm0 hcm0 hwf
                  (hbnp bv0 (by simp)) (hcnp cv0 (by simp))
                have hret' : aliasF f aa 1 cv0 cw bv0 bw = some ret := by
                  rw [← hsymm0]; exact hret
                rw [hret, hret']
                simp only
                by_cases hmay : ret = ARel.mayAlias
                · rw [if_pos hmay, if_pos hmay]
                · rw [if_neg hmay, if_neg hmay]
                  have hq1 : ∀ bv ∈ bv0 :: brest, ∀ cv ∈ cv0 :: crest,
                      (aliasF f aa 1 bv bw cv cw).isSome = true := by
                    intro bv hbv cv hcv
                    exact alias1_total f aa bw cw (hbmem bv hbv) (hcmem cv hcv)
                      hwf hsep haa (hbnp bv hbv) (hcnp cv hcv)
                  have hq2 : ∀ cv ∈ cv0 :: crest, ∀ bv ∈ bv0 :: brest,
                      (aliasF f aa 1 cv cw bv bw).isSome = true := by
                    intro cv hcv bv hbv
                    exact alias1_total f aa cw bw (hcmem cv hcv) (hbmem bv hbv)
                      hwf hsep haa (hcnp cv hcv) (hbnp bv hbv)
                  rw [phialiasAll_eval _ ret _ _ (fun bv hbv cv hcv =>
                    hq1 bv hbv cv hcv)]
                  rw [phialiasAll_eval _ ret _ _ (fun cv hcv bv hbv =>
                    hq2 cv hcv bv hbv)]
                  have hswap : ((bv0 :: brest).all fun bv =>
                      (cv0 :: crest).all fun cv =>
                        decide (aliasF f aa 1 bv bw cv cw = some ret)) =
                      ((cv0 :: crest).all fun cv => (bv0 :: brest).all fun bv =>
                        decide (aliasF f aa 1 cv cw bv bw = some ret)) := by
                    rw [all_all_swap]
                    apply all_congr
                    intro cv hcv
                    apply all_congr
                    intro bv hbv
                    rw [alias1_symm f aa hbw hcw (hbmem bv hbv) (hcmem cv hcv)
                      hwf (hbnp bv hbv) (hcnp cv hcv)]
                  rw [hswap]

/-- C10 (amended): the alias query is symmetric for queries over the
function's values with positive widths, given well-formed pointer
chains and partition state.  As stated, the claim fails at width zero,
where the constant-offset overlap test is order-dependent (see the
counterexample). -/
theorem alias_symmetric (f : Func) (aa : AliasAnalysis) (b c : Value)
    (bw cw : Int) (hb : b ∈ f.values) (hc : c ∈ f.values)
    (hbw : 0 < bw) (hcw : 0 < cw)
    (hwf : PtrWF f) (hsep : AllocsSep f aa) (haa : AAWF aa) :
    aliasQ f aa b bw c cw = aliasQ f aa c cw b bw := by
  unfold aliasQ
  rw [show (2 : Nat) = 1 + 1 from rfl]
  simp only [aliasF]
  by_cases hid : b.id = c.id
  · have hid' : c.id = b.id := hid.symm
    rw [if_pos hid, if_pos hid']
    by_cases hww : bw = cw
    · rw [if_neg (show ¬ bw ≠ cw by omega), if_neg (show ¬ cw ≠ bw by omega)]
    · rw [if_pos (show bw ≠ cw by omega), if_pos (show cw ≠ bw by omega)]
  · have hid' : ¬ c.id = b.id := fun h => hid h.symm
    rw [if_neg hid, if_neg hid']
    by_cases hphi : b.op = Op.OpPhi ∨ c.op = Op.OpPhi
    · have hphi' : c.op = Op.OpPhi ∨ b.op = Op.OpPhi := hphi.symm
      rw [if_pos hphi, if_pos hphi']
      exact phialiasF_symm f aa hbw hcw hwf hsep haa
    · have hphi' : ¬ (c.op = Op.OpPhi ∨ b.op = Op.OpPhi) :=
        fun h => hphi h.symm
      rw [if_neg hphi, if_neg hphi']
      obtain ⟨bb, hbb⟩ := Option.isSome_iff_exists.mp (hwf b hb).1
      obtain ⟨cb, hcb⟩ := Option.isSome_iff_exists.mp (hwf c hc).1
      obtain ⟨ob, hob⟩ := Option.isSome_iff_exists.mp (hwf b hb).2
      obtain ⟨oc, hoc⟩ := Option.isSome_iff_exists.mp (hwf c hc).2
      exact aliasCore_symm f aa hbw hcw hbb hcb hob hoc

theorem alias_symmetric_cex :
    offsplit cexF3 cexQ = some (20, 0) ∧
    offsplit cexF3 cexCopy = some (20, 0) ∧
    aliasQ cexF3 cexAA cexQ 5 cexCopy 0 = some ARel.mayAlias ∧
    aliasQ cexF3 cexAA cexCopy 0 cexQ 5 = some ARel.mustNotAlias := by
  exact ⟨by decide, by decide, by decide, by decide⟩

theorem alias_symmetric_wit :
    aliasQ testFunc testAA vauto0 8 vhi0 4 =
      aliasQ testFunc testAA vhi0 4 vauto0 8 ∧
    aliasQ testFunc testAA vauto0 8 vhi0 4 = some ARel.mayAlias :=
  ⟨alias_symmetric testFunc testAA vauto0 vhi0 8 4 (by decide) (by decide)
    (by decide) (by decide) (by decide) (by decide) (by decide),
   by decide⟩

end GoSSA
